import Mathlib

/-!
Verification of the structured-field values codec (RFC 8941 style), a Go
package with two source files: a recursive-descent parser from header text
to a typed value tree, and an encoder rendering the tree back to canonical
text.  The embedding works over byte strings modelled as lists of natural
numbers (ASCII codes); the Go parser's explicit cursor position is modelled
by passing the remaining input suffix.
-/

namespace SF

/-- ASCII bytes of a Lean string literal, for readable concrete inputs. -/
def str (s : String) : List Nat := s.data.map Char.toNat

/-- The three parse error kinds: ErrUnexpectedEOL, ErrUnrecognized,
ErrTooManyDigits. -/
inductive Err where
  | unexpectedEOL
  | unrecognized
  | tooManyDigits
  deriving DecidableEq, Repr

/-! ## Value model

BareItem is the closed union Integer | Decimal | String | Token | ByteSeq
| Bool; Integer and Decimal are Go int64 values modelled as Int (the
claims stay within the 15-digit budget, far below overflow); String,
Token, ByteSeq hold their bytes. -/

inductive BareItem where
  | integer (n : Int)
  | decimal (n : Int)
  | string (s : List Nat)
  | token (s : List Nat)
  | byteSeq (b : List Nat)
  | bool (b : Bool)
  deriving DecidableEq, Repr

/-- Param is a key-value pair associated with an item. -/
structure Param where
  key : List Nat
  value : BareItem
  deriving DecidableEq, Repr

/-- ParamList is an array of zero or more parameters. -/
abbrev ParamList := List Param

/-- Item is a bare item having zero or more associated parameters. -/
structure Item where
  bare : BareItem
  params : ParamList
  deriving DecidableEq, Repr

/-- InnerList is an array of zero or more items with associated parameters. -/
structure InnerList where
  items : List Item
  params : ParamList
  deriving DecidableEq, Repr

/-- Member is an item or an inner list. -/
inductive Member where
  | item (i : Item)
  | innerList (il : InnerList)
  deriving DecidableEq, Repr

/-- Pair is a key-value pair in a dictionary. -/
structure Pair where
  key : List Nat
  value : Member
  deriving DecidableEq, Repr

/-- Dict is an ordered map of key-value pairs. -/
abbrev Dict := List Pair

/-- SList is the top-level List type (an array of members); named SList
because List is taken by Lean's built-in type. -/
abbrev SList := List Member

/-! ## Dict.Add / ParamList.Add

The Go loop is: for _, p := range d { if p.Key == k { p.Value = v; return
d } }; d = append(d, Pair{k, v}).  The range variable p is a copy of the
slice element, so the assignment p.Value = v mutates only the copy: when
the key is already present the function returns d unchanged. -/

/-- Dict.Add: appends when the key is absent; when the key is present the
range-variable copy is mutated and the dictionary is returned unchanged. -/
def Dict.Add (d : Dict) (k : List Nat) (v : Member) : Dict :=
  if d.any (fun p => p.key = k) then d else d ++ [⟨k, v⟩]

/-- ParamList.Add: same shape (and same range-variable copy) as Dict.Add. -/
def ParamList.Add (l : ParamList) (k : List Nat) (v : BareItem) : ParamList :=
  if l.any (fun p => p.key = k) then l else l ++ [⟨k, v⟩]

/-! ## Lexical classifiers (pure character-class predicates) -/

def isPrint (b : Nat) : Bool := 32 ≤ b && b ≤ 126

def isDigit (b : Nat) : Bool := 48 ≤ b && b ≤ 57

def isUpper (b : Nat) : Bool := 65 ≤ b && b ≤ 90

def isLower (b : Nat) : Bool := 97 ≤ b && b ≤ 122

def isAlpha (b : Nat) : Bool := isLower b || isUpper b

/-- Key characters: lowercase letters, digits, underscore 95, hyphen 45,
dot 46, asterisk 42. -/
def isKeyChar (b : Nat) : Bool :=
  isLower b || isDigit b || b = 95 || b = 45 || b = 46 || b = 42

/-- Token characters: letters, digits, and ! # $ % & apostrophe * + - .
^ _ backquote | ~ : / (codes 33 35 36 37 38 39 42 43 45 46 94 95 96 124
126 58 47). -/
def isTokenChar (b : Nat) : Bool :=
  isAlpha b || isDigit b || b = 33 || b = 35 || b = 36 || b = 37 || b = 38 ||
    b = 39 || b = 42 || b = 43 || b = 45 || b = 46 || b = 94 || b = 95 ||
    b = 96 || b = 124 || b = 126 || b = 58 || b = 47

/-- Base-64 alphabet characters: letters, digits, plus 43, slash 47,
equals 61. -/
def isBase64Char (b : Nat) : Bool :=
  isAlpha b || isDigit b || b = 43 || b = 47 || b = 61

/-- skipSpaces advances past leading space bytes (32). -/
def skipSpaces (s : List Nat) : List Nat := s.dropWhile (fun c => c == 32)

/-! ## Decimal digit strings

natDigitsF is strconv-style decimal rendering of a Nat, big-endian digit
bytes, with a structural fuel argument so that it reduces by rfl; the
fuel n + 1 always suffices. -/

def natDigitsF : Nat → Nat → List Nat
  | 0, _ => []
  | f + 1, n => if n < 10 then [n + 48] else natDigitsF f (n / 10) ++ [n % 10 + 48]

/-- The decimal digit bytes of a natural number (strconv.FormatInt for
nonnegative values). -/
def natDigits (n : Nat) : List Nat := natDigitsF (n + 1) n

/-- Number of decimal digits of n. -/
def digitCount (n : Nat) : Nat := (natDigits n).length

/-- Numeric value of a big-endian digit byte string
(strconv.ParseInt on a run of digit bytes). -/
def digitsToNat (ds : List Nat) : Nat := ds.foldl (fun a c => a * 10 + (c - 48)) 0

end SF

namespace SF

theorem natDigitsF_succ (f n : Nat) :
    natDigitsF (f + 1) n =
      if n < 10 then [n + 48] else natDigitsF f (n / 10) ++ [n % 10 + 48] := rfl

theorem natDigitsF_congr : ∀ f g n : Nat, n < f → n < g →
    natDigitsF f n = natDigitsF g n := by
  intro f
  induction f with
  | zero => intro g n h; omega
  | succ f ih =>
    intro g n hf hg
    match g, hg with
    | g + 1, _ =>
      rw [natDigitsF_succ, natDigitsF_succ]
      by_cases h : n < 10
      · simp [h]
      · simp only [if_neg h]
        have hd : n / 10 < f := by omega
        have hd' : n / 10 < g := by omega
        rw [ih g (n / 10) hd hd']

theorem natDigits_lt10 {n : Nat} (h : n < 10) : natDigits n = [n + 48] := by
  unfold natDigits
  rw [natDigitsF_succ, if_pos h]

theorem natDigits_ge10 {n : Nat} (h : 10 ≤ n) :
    natDigits n = natDigits (n / 10) ++ [n % 10 + 48] := by
  unfold natDigits
  rw [natDigitsF_succ, if_neg (by omega)]
  congr 1
  exact natDigitsF_congr n (n / 10 + 1) (n / 10) (by omega) (by omega)

theorem digitsToNat_append (xs ys : List Nat) :
    digitsToNat (xs ++ ys) =
      digitsToNat xs * 10 ^ ys.length + digitsToNat ys := by
  have key : ∀ (l : List Nat) (a : Nat),
      l.foldl (fun a c => a * 10 + (c - 48)) a =
        a * 10 ^ l.length + l.foldl (fun a c => a * 10 + (c - 48)) 0 := by
    intro l
    induction l with
    | nil => intro a; simp
    | cons c l ih =>
      intro a
      simp only [List.foldl_cons, List.length_cons]
      rw [ih (a * 10 + (c - 48)), ih (0 * 10 + (c - 48))]
      ring
  unfold digitsToNat
  rw [List.foldl_append, key ys (List.foldl _ 0 xs)]

theorem digitsToNat_natDigits (n : Nat) : digitsToNat (natDigits n) = n := by
  induction n using Nat.strong_induction_on with
  | _ n ih =>
    by_cases h : n < 10
    · rw [natDigits_lt10 h]
      simp [digitsToNat]
    · rw [natDigits_ge10 (by omega), digitsToNat_append,
        ih (n / 10) (by omega)]
      simp [digitsToNat]
      omega

theorem natDigits_all_digits (n : Nat) : (natDigits n).all isDigit = true := by
  induction n using Nat.strong_induction_on with
  | _ n ih =>
    by_cases h : n < 10
    · rw [natDigits_lt10 h]
      simp [isDigit]
      omega
    · rw [natDigits_ge10 (by omega)]
      simp only [List.all_append]
      rw [ih (n / 10) (by omega)]
      simp [isDigit]
      omega

theorem natDigits_ne_nil (n : Nat) : natDigits n ≠ [] := by
  by_cases h : n < 10
  · rw [natDigits_lt10 h]; simp
  · rw [natDigits_ge10 (by omega)]; simp

/-! ## Base-64 (models encoding/base64 StdEncoding)

b64Char maps a 6-bit group index to its alphabet byte; b64Index is the
reverse lookup.  base64Encode renders 3-byte groups as 4 alphabet bytes
with = (61) padding.  base64Decode models DecodeString with the error
dropped, as the repository drops it: it emits the bytes of complete
well-formed quads and stops at the first malformed or padded quad,
returning whatever was decoded so far. -/

def b64Char (n : Nat) : Nat :=
  if n < 26 then n + 65
  else if n < 52 then n - 26 + 97
  else if n < 62 then n - 52 + 48
  else if n = 62 then 43
  else 47

def b64Index (c : Nat) : Option Nat :=
  if 65 ≤ c ∧ c ≤ 90 then some (c - 65)
  else if 97 ≤ c ∧ c ≤ 122 then some (c - 97 + 26)
  else if 48 ≤ c ∧ c ≤ 57 then some (c - 48 + 52)
  else if c = 43 then some 62
  else if c = 47 then some 63
  else none

def base64Encode : List Nat → List Nat
  | [] => []
  | [b1] => [b64Char (b1 / 4), b64Char (b1 % 4 * 16), 61, 61]
  | [b1, b2] =>
    [b64Char (b1 / 4), b64Char (b1 % 4 * 16 + b2 / 16), b64Char (b2 % 16 * 4), 61]
  | b1 :: b2 :: b3 :: rest =>
    b64Char (b1 / 4) :: b64Char (b1 % 4 * 16 + b2 / 16) ::
      b64Char (b2 % 16 * 4 + b3 / 64) :: b64Char (b3 % 64) :: base64Encode rest

def base64Decode : List Nat → List Nat
  | c1 :: c2 :: c3 :: c4 :: rest =>
    match b64Index c1, b64Index c2 with
    | some i1, some i2 =>
      match b64Index c3 with
      | some i3 =>
        match b64Index c4 with
        | some i4 =>
          (i1 * 4 + i2 / 16) :: (i2 % 16 * 16 + i3 / 4) ::
            (i3 % 4 * 64 + i4) :: base64Decode rest
        | none =>
          if c4 = 61 then [i1 * 4 + i2 / 16, i2 % 16 * 16 + i3 / 4] else []
      | none =>
        if c3 = 61 ∧ c4 = 61 then [i1 * 4 + i2 / 16] else []
    | _, _ => []
  | _ => []

/-! ## Bare-item parsers

Each parser takes the remaining input suffix (the Go code threads an
explicit position into a fixed byte slice; the suffix from that position
is the same data) and returns the parsed value with the new suffix, or
the first error. -/

/-- parseKey: skip spaces, require a lowercase letter or *, then consume
the run of key characters. -/
def parseKey (s : List Nat) : Except Err (List Nat × List Nat) :=
  match skipSpaces s with
  | [] => .error .unexpectedEOL
  | c :: rest =>
    if c = 42 ∨ isLower c then
      .ok ((c :: rest).takeWhile isKeyChar, (c :: rest).dropWhile isKeyChar)
    else .error .unrecognized

/-- The digit loop of parseNumber: sb is the collected digit bytes,
dp the fractional-digit count (none models the Go sentinel -1). The
15-total-digit check precedes the write; the 3-fractional-digit check
follows it; a second dot or any other byte ends the loop. -/
def parseNumberLoop (sb : List Nat) (dp : Option Nat) :
    List Nat → Except Err (List Nat × Option Nat × List Nat)
  | [] => .ok (sb, dp, [])
  | c :: rest =>
    if isDigit c then
      if sb.length = 15 then .error .tooManyDigits
      else
        match dp with
        | some j =>
          if j = 3 then .error .tooManyDigits
          else parseNumberLoop (sb ++ [c]) (some (j + 1)) rest
        | none => parseNumberLoop (sb ++ [c]) none rest
    else if c = 46 then
      match dp with
      | some _ => .ok (sb, dp, c :: rest)
      | none => parseNumberLoop sb (some 0) rest
    else .ok (sb, dp, c :: rest)

/-- The body of parseNumber after the sign has been read: requires a
digit (end of input after a lone minus is UnexpectedEOL, a non-digit is
Unrecognized), runs the digit loop, then dispatches on the fractional
count: none is an Integer, 1 to 3 digits scale a Decimal to the x1000
internal form (by 100, 10, 1 respectively), and a dot with no digits
after it is Unrecognized. -/
def parseNumberTail (sign : Int) (s1 : List Nat) : Except Err (BareItem × List Nat) :=
  match s1 with
  | [] => .error .unexpectedEOL
  | d :: _ =>
    if isDigit d then
      match parseNumberLoop [] none s1 with
      | .error e => .error e
      | .ok (sb, dp, rest) =>
        match dp with
        | none => .ok (.integer (sign * (digitsToNat sb : Nat)), rest)
        | some 1 => .ok (.decimal (sign * (digitsToNat sb : Nat) * 100), rest)
        | some 2 => .ok (.decimal (sign * (digitsToNat sb : Nat) * 10), rest)
        | some 3 => .ok (.decimal (sign * (digitsToNat sb : Nat)), rest)
        | some _ => .error .unrecognized
    else .error .unrecognized

/-- parseNumber: optional leading minus, then the digit machinery.  The
empty-input case cannot arise (the dispatcher checks the head). -/
def parseNumber (s : List Nat) : Except Err (BareItem × List Nat) :=
  match s with
  | [] => .error .unrecognized
  | c :: r0 =>
    if c = 45 ∨ isDigit c then
      parseNumberTail (if c = 45 then -1 else 1) (if c = 45 then r0 else c :: r0)
    else .error .unrecognized

/-- The copy loop of parseString; acc holds the unescaped content (the
Go code copies the escape sequences verbatim and unquotes at the end via
strconv.Unquote, which on the inputs the loop admits, only the two
escapes backslash-quote and backslash-backslash over printable ASCII,
amounts to dropping each escaping backslash). -/
def parseStringLoop (acc : List Nat) : List Nat → Except Err (List Nat × List Nat)
  | [] => .error .unexpectedEOL
  | c :: rest =>
    if c = 34 then .ok (acc, rest)
    else if c = 92 then
      match rest with
      | [] => .error .unexpectedEOL
      | d :: rest2 =>
        if d = 34 ∨ d = 92 then
          if isPrint d then parseStringLoop (acc ++ [d]) rest2
          else .error .unrecognized
        else .error .unrecognized
    else if isPrint c then parseStringLoop (acc ++ [c]) rest
    else .error .unrecognized

/-- parseString: a leading quote, the copy loop, consuming the closing
quote. -/
def parseString (s : List Nat) : Except Err (BareItem × List Nat) :=
  match s with
  | [] => .error .unrecognized
  | c :: rest =>
    if c = 34 then
      match parseStringLoop [] rest with
      | .error e => .error e
      | .ok (content, rest2) => .ok (.string content, rest2)
    else .error .unrecognized

/-- parseToken: requires * or a letter, then consumes the run of token
characters. -/
def parseToken (s : List Nat) : Except Err (BareItem × List Nat) :=
  match s with
  | [] => .error .unrecognized
  | c :: _ =>
    if c = 42 ∨ isAlpha c then
      .ok (.token (s.takeWhile isTokenChar), s.dropWhile isTokenChar)
    else .error .unrecognized

/-- The payload loop of parseByteSeq: collect Base-64 alphabet bytes up
to the closing colon. -/
def parseByteSeqLoop (acc : List Nat) : List Nat → Except Err (List Nat × List Nat)
  | [] => .error .unexpectedEOL
  | c :: rest =>
    if c = 58 then .ok (acc, rest)
    else if isBase64Char c then parseByteSeqLoop (acc ++ [c]) rest
    else .error .unrecognized

/-- parseByteSeq: leading colon, payload loop, decode with the decode
error dropped. -/
def parseByteSeq (s : List Nat) : Except Err (BareItem × List Nat) :=
  match s with
  | [] => .error .unrecognized
  | c :: rest =>
    if c = 58 then
      match parseByteSeqLoop [] rest with
      | .error e => .error e
      | .ok (payload, rest2) => .ok (.byteSeq (base64Decode payload), rest2)
    else .error .unrecognized

/-- parseBool: a question mark then exactly 0 or 1. -/
def parseBool (s : List Nat) : Except Err (BareItem × List Nat) :=
  match s with
  | [] => .error .unrecognized
  | c :: rest =>
    if c = 63 then
      match rest with
      | [] => .error .unexpectedEOL
      | d :: rest2 =>
        if d = 48 then .ok (.bool false, rest2)
        else if d = 49 then .ok (.bool true, rest2)
        else .error .unrecognized
    else .error .unrecognized

/-- parseBareItem: skip spaces and dispatch on the first character class
in the bareItemParsers order: minus or digit, quote, star or letter,
colon, question mark. -/
def parseBareItem (s : List Nat) : Except Err (BareItem × List Nat) :=
  match skipSpaces s with
  | [] => .error .unexpectedEOL
  | c :: rest =>
    if c = 45 ∨ isDigit c then parseNumber (c :: rest)
    else if c = 34 then parseString (c :: rest)
    else if c = 42 ∨ isAlpha c then parseToken (c :: rest)
    else if c = 58 then parseByteSeq (c :: rest)
    else if c = 63 then parseBool (c :: rest)
    else .error .unrecognized

/-! Consumption bounds for the primitive parsers, needed as termination
measures for the parser loops below. -/

theorem skipSpaces_length (s : List Nat) : (skipSpaces s).length ≤ s.length :=
  (List.dropWhile_sublist _).length_le

theorem parseKey_length {s k r : List Nat} (h : parseKey s = .ok (k, r)) :
    r.length ≤ s.length := by
  unfold parseKey at h
  split at h
  · exact Except.noConfusion h
  · next c rest heq =>
    split at h
    · simp only [Except.ok.injEq, Prod.mk.injEq] at h
      obtain ⟨-, h2⟩ := h
      subst h2
      calc ((c :: rest).dropWhile isKeyChar).length
          ≤ (c :: rest).length := (List.dropWhile_sublist _).length_le
        _ = (skipSpaces s).length := by rw [heq]
        _ ≤ s.length := skipSpaces_length s
    · exact Except.noConfusion h

theorem parseNumberLoop_length :
    ∀ (s sb : List Nat) (dp : Option Nat) {sb' dp' r},
      parseNumberLoop sb dp s = .ok (sb', dp', r) → r.length ≤ s.length := by
  intro s
  induction s with
  | nil =>
    intro sb dp sb' dp' r h
    simp only [parseNumberLoop, Except.ok.injEq, Prod.mk.injEq] at h
    obtain ⟨-, -, h3⟩ := h
    subst h3
    exact Nat.le_refl _
  | cons c rest ih =>
    intro sb dp sb' dp' r h
    simp only [parseNumberLoop] at h
    split at h
    · split at h
      · exact Except.noConfusion h
      · split at h
        · split at h
          · exact Except.noConfusion h
          · exact Nat.le_succ_of_le (ih _ _ h)
        · exact Nat.le_succ_of_le (ih _ _ h)
    · split at h
      · split at h
        · simp only [Except.ok.injEq, Prod.mk.injEq] at h
          obtain ⟨-, -, h3⟩ := h
          subst h3
          exact Nat.le_refl _
        · exact Nat.le_succ_of_le (ih _ _ h)
      · simp only [Except.ok.injEq, Prod.mk.injEq] at h
        obtain ⟨-, -, h3⟩ := h
        subst h3
        exact Nat.le_refl _

theorem parseNumberLoop_cons_digit {c : Nat} {rest sb : List Nat} {dp : Option Nat}
    {sb' dp' r} (hc : isDigit c = true)
    (h : parseNumberLoop sb dp (c :: rest) = .ok (sb', dp', r)) :
    r.length ≤ rest.length := by
  simp only [parseNumberLoop] at h
  split at h
  · split at h
    · exact Except.noConfusion h
    · split at h
      · split at h
        · exact Except.noConfusion h
        · exact parseNumberLoop_length _ _ _ h
      · exact parseNumberLoop_length _ _ _ h
  · next hnd => exact absurd hc hnd

theorem parseNumberTail_length {sign : Int} {s1 r : List Nat} {b : BareItem}
    (h : parseNumberTail sign s1 = .ok (b, r)) : r.length < s1.length := by
  unfold parseNumberTail at h
  split at h
  · exact Except.noConfusion h
  · next d rest1 =>
    split at h
    · next hd =>
      split at h
      · exact Except.noConfusion h
      · next sb dp rest heq =>
        have hle := parseNumberLoop_cons_digit hd heq
        split at h <;>
          first
          | exact Except.noConfusion h
          | (simp only [Except.ok.injEq, Prod.mk.injEq] at h
             obtain ⟨-, h2⟩ := h
             subst h2
             exact Nat.lt_succ_of_le hle)
    · exact Except.noConfusion h

theorem parseNumber_length {s r : List Nat} {b : BareItem}
    (h : parseNumber s = .ok (b, r)) : r.length < s.length := by
  unfold parseNumber at h
  split at h
  · exact Except.noConfusion h
  · next c r0 =>
    split at h
    · have hlt := parseNumberTail_length h
      by_cases h45 : c = 45 <;> simp [h45] at hlt <;> simp <;> omega
    · exact Except.noConfusion h

theorem parseStringLoop_cons (acc : List Nat) (c : Nat) (rest : List Nat) :
    parseStringLoop acc (c :: rest) =
      if c = 34 then .ok (acc, rest)
      else if c = 92 then
        match rest with
        | [] => .error .unexpectedEOL
        | d :: rest2 =>
          if d = 34 ∨ d = 92 then
            if isPrint d then parseStringLoop (acc ++ [d]) rest2
            else .error .unrecognized
          else .error .unrecognized
      else if isPrint c then parseStringLoop (acc ++ [c]) rest
      else .error .unrecognized := by
  rw [parseStringLoop.eq_def]

theorem parseStringLoop_lengthN :
    ∀ (n : Nat) (s : List Nat), s.length ≤ n → ∀ (acc : List Nat) {v r},
      parseStringLoop acc s = .ok (v, r) → r.length ≤ s.length := by
  intro n
  induction n with
  | zero =>
    intro s hs acc v r h
    match s, hs with
    | [], _ => exact Except.noConfusion h
  | succ n ih =>
    intro s hs acc v r h
    match s with
    | [] => exact Except.noConfusion h
    | c :: rest =>
      rw [parseStringLoop_cons] at h
      split at h
      · simp only [Except.ok.injEq, Prod.mk.injEq] at h
        obtain ⟨-, h2⟩ := h
        subst h2
        exact Nat.le_succ_of_le (Nat.le_refl _)
      · split at h
        · split at h
          · exact Except.noConfusion h
          · next d rest2 =>
            split at h
            · split at h
              · have hr : rest2.length ≤ n := by
                  simp only [List.length_cons] at hs ⊢
                  omega
                have := ih rest2 hr _ h
                simp only [List.length_cons]
                omega
              · exact Except.noConfusion h
            · exact Except.noConfusion h
        · split at h
          · have hr : rest.length ≤ n := by
              simp only [List.length_cons] at hs
              omega
            have := ih rest hr _ h
            simp only [List.length_cons]
            omega
          · exact Except.noConfusion h

theorem parseStringLoop_length {s acc v r : List Nat}
    (h : parseStringLoop acc s = .ok (v, r)) : r.length ≤ s.length :=
  parseStringLoop_lengthN s.length s (Nat.le_refl _) acc h

theorem parseString_length {s r : List Nat} {b : BareItem}
    (h : parseString s = .ok (b, r)) : r.length < s.length := by
  unfold parseString at h
  split at h
  · exact Except.noConfusion h
  · next c rest =>
    split at h
    · split at h
      · exact Except.noConfusion h
      · next content rest2 heq =>
        simp only [Except.ok.injEq, Prod.mk.injEq] at h
        obtain ⟨-, h2⟩ := h
        subst h2
        exact Nat.lt_succ_of_le (parseStringLoop_length heq)
    · exact Except.noConfusion h

theorem tokenChar_of_start {c : Nat} (h : c = 42 ∨ isAlpha c = true) :
    isTokenChar c = true := by
  rcases h with rfl | h
  · decide
  · simp [isTokenChar, h]

theorem keyChar_of_start {c : Nat} (h : c = 42 ∨ isLower c = true) :
    isKeyChar c = true := by
  rcases h with rfl | h
  · decide
  · simp [isKeyChar, h]

theorem parseToken_length {s r : List Nat} {b : BareItem}
    (h : parseToken s = .ok (b, r)) : r.length < s.length := by
  unfold parseToken at h
  split at h
  · exact Except.noConfusion h
  · next c rest =>
    split at h
    · next hc =>
      simp only [Except.ok.injEq, Prod.mk.injEq] at h
      obtain ⟨-, h2⟩ := h
      subst h2
      rw [List.dropWhile_cons_of_pos (tokenChar_of_start hc)]
      exact Nat.lt_succ_of_le (List.dropWhile_sublist _).length_le
    · exact Except.noConfusion h

theorem parseByteSeqLoop_length :
    ∀ (s acc : List Nat) {v r}, parseByteSeqLoop acc s = .ok (v, r) →
      r.length ≤ s.length := by
  intro s
  induction s with
  | nil => intro acc v r h; exact Except.noConfusion h
  | cons c rest ih =>
    intro acc v r h
    simp only [parseByteSeqLoop] at h
    split at h
    · simp only [Except.ok.injEq, Prod.mk.injEq] at h
      obtain ⟨-, h2⟩ := h
      subst h2
      exact Nat.le_succ_of_le (Nat.le_refl _)
    · split at h
      · exact Nat.le_succ_of_le (ih _ h)
      · exact Except.noConfusion h

theorem parseByteSeq_length {s r : List Nat} {b : BareItem}
    (h : parseByteSeq s = .ok (b, r)) : r.length < s.length := by
  unfold parseByteSeq at h
  split at h
  · exact Except.noConfusion h
  · next c rest =>
    split at h
    · split at h
      · exact Except.noConfusion h
      · next payload rest2 heq =>
        simp only [Except.ok.injEq, Prod.mk.injEq] at h
        obtain ⟨-, h2⟩ := h
        subst h2
        exact Nat.lt_succ_of_le (parseByteSeqLoop_length _ _ heq)
    · exact Except.noConfusion h

theorem parseBool_length {s r : List Nat} {b : BareItem}
    (h : parseBool s = .ok (b, r)) : r.length < s.length := by
  unfold parseBool at h
  split at h
  · exact Except.noConfusion h
  · next c rest =>
    split at h
    · split at h
      · exact Except.noConfusion h
      · next d rest2 =>
        split at h
        · simp only [Except.ok.injEq, Prod.mk.injEq] at h
          obtain ⟨-, h2⟩ := h
          subst h2
          simp only [List.length_cons]
          omega
        · split at h
          · simp only [Except.ok.injEq, Prod.mk.injEq] at h
            obtain ⟨-, h2⟩ := h
            subst h2
            simp only [List.length_cons]
            omega
          · exact Except.noConfusion h
    · exact Except.noConfusion h

theorem parseBareItem_length {s r : List Nat} {b : BareItem}
    (h : parseBareItem s = .ok (b, r)) : r.length < s.length := by
  unfold parseBareItem at h
  split at h
  · exact Except.noConfusion h
  · next c rest heq =>
    have hcr : (c :: rest).length ≤ s.length := heq ▸ skipSpaces_length s
    have key : r.length < (c :: rest).length := by
      split at h
      · exact parseNumber_length h
      · split at h
        · exact parseString_length h
        · split at h
          · exact parseToken_length h
          · split at h
            · exact parseByteSeq_length h
            · split at h
              · exact parseBool_length h
              · exact Except.noConfusion h
    omega

/-! ## Parameter-list, item, inner-list, member, pair parsers

The Go for-loops terminate because every iteration consumes at least one
byte.  Here each loop carries a structural fuel counter; every caller
passes one more than the length of the loop's input, which is shown to be
enough (fuel exhaustion, the unreachable case, reports UnexpectedEOL). -/

/-- The loop of parseParams: skip spaces; stop (returning the
space-skipped suffix) unless a semicolon follows; then a key, an optional
equals-sign with a bare-item value (default Bool true), upserted via
ParamList.Add. -/
def parseParamsLoopF : Nat → ParamList → List Nat → Except Err (ParamList × List Nat)
  | 0, _, _ => .error .unexpectedEOL
  | fuel + 1, params, s =>
    match skipSpaces s with
    | [] => .ok (params, [])
    | c :: rest =>
      if c = 59 then
        match parseKey rest with
        | .error e => .error e
        | .ok (key, s2) =>
          if s2.head? = some 61 then
            match parseBareItem s2.tail with
            | .error e => .error e
            | .ok (value, s4) => parseParamsLoopF fuel (ParamList.Add params key value) s4
          else parseParamsLoopF fuel (ParamList.Add params key (.bool true)) s2
      else .ok (params, c :: rest)

/-- parseParams starts the loop from the empty parameter list. -/
def parseParams (s : List Nat) : Except Err (ParamList × List Nat) :=
  parseParamsLoopF (s.length + 1) [] s

theorem parseParamsLoopF_length :
    ∀ (fuel : Nat) (ps : ParamList) (s : List Nat) {ps' r},
      parseParamsLoopF fuel ps s = .ok (ps', r) → r.length ≤ s.length := by
  intro fuel
  induction fuel with
  | zero => intro ps s ps' r h; exact Except.noConfusion h
  | succ fuel ih =>
    intro ps s ps' r h
    simp only [parseParamsLoopF] at h
    split at h
    · simp only [Except.ok.injEq, Prod.mk.injEq] at h
      obtain ⟨-, h2⟩ := h
      subst h2
      exact Nat.zero_le _
    · next c rest h1 =>
      have hcr : (c :: rest).length ≤ s.length := h1 ▸ skipSpaces_length s
      split at h
      · split at h
        · exact Except.noConfusion h
        · next key s2 h2 =>
          have hk := parseKey_length h2
          have htl : s2.tail.length ≤ s2.length := by
            cases s2 <;> simp
          split at h
          · split at h
            · exact Except.noConfusion h
            · next value s4 h4 =>
              have hb := parseBareItem_length h4
              have := ih _ _ h
              simp only [List.length_cons] at hcr hk
              omega
          · have := ih _ _ h
            simp only [List.length_cons] at hcr
            omega
      · simp only [Except.ok.injEq, Prod.mk.injEq] at h
        obtain ⟨-, h2⟩ := h
        subst h2
        exact hcr

theorem parseParams_length {s r : List Nat} {ps : ParamList}
    (h : parseParams s = .ok (ps, r)) : r.length ≤ s.length :=
  parseParamsLoopF_length _ _ _ h

/-- Fuel does not matter as long as it exceeds the input length. -/
theorem parseParamsLoopF_congr :
    ∀ (f g : Nat) (ps : ParamList) (s : List Nat), s.length < f → s.length < g →
      parseParamsLoopF f ps s = parseParamsLoopF g ps s := by
  intro f
  induction f with
  | zero => intro g ps s hf; omega
  | succ f ih =>
    intro g ps s hf hg
    match g, hg with
    | g + 1, hg =>
      simp only [parseParamsLoopF]
      split
      · rfl
      · next c rest h1 =>
        have hcr : (c :: rest).length ≤ s.length := h1 ▸ skipSpaces_length s
        split
        · split
          · rfl
          · next key s2 h2 =>
            have hk := parseKey_length h2
            have htl : s2.tail.length ≤ s2.length := by
              cases s2 <;> simp
            split
            · split
              · rfl
              · next value s4 h4 =>
                have hb := parseBareItem_length h4
                apply ih
                · simp only [List.length_cons] at hcr hk
                  omega
                · simp only [List.length_cons] at hcr hk
                  omega
            · apply ih
              · simp only [List.length_cons] at hcr
                omega
              · simp only [List.length_cons] at hcr
                omega
        · rfl

/-- parseItem: a bare item followed by its parameter list. -/
def parseItem (s : List Nat) : Except Err (Item × List Nat) :=
  match parseBareItem s with
  | .error e => .error e
  | .ok (b, s1) =>
    match parseParams s1 with
    | .error e => .error e
    | .ok (p, s2) => .ok (⟨b, p⟩, s2)

theorem parseItem_length {s r : List Nat} {it : Item}
    (h : parseItem s = .ok (it, r)) : r.length < s.length := by
  unfold parseItem at h
  split at h
  · exact Except.noConfusion h
  · next b s1 heq1 =>
    split at h
    · exact Except.noConfusion h
    · next p s2 heq2 =>
      simp only [Except.ok.injEq, Prod.mk.injEq] at h
      obtain ⟨-, h2⟩ := h
      subst h2
      have := parseBareItem_length heq1
      have := parseParams_length heq2
      omega

/-- The loop of parseInnerList: skip spaces (end of input is
UnexpectedEOL), stop at a closing parenthesis, otherwise parse one item
and append it. -/
def parseInnerListLoopF : Nat → List Item → List Nat → Except Err (List Item × List Nat)
  | 0, _, _ => .error .unexpectedEOL
  | fuel + 1, items, s =>
    match skipSpaces s with
    | [] => .error .unexpectedEOL
    | c :: rest =>
      if c = 41 then .ok (items, rest)
      else
        match parseItem (c :: rest) with
        | .error e => .error e
        | .ok (it, s2) => parseInnerListLoopF fuel (items ++ [it]) s2

theorem parseInnerListLoopF_length :
    ∀ (fuel : Nat) (items : List Item) (s : List Nat) {items' r},
      parseInnerListLoopF fuel items s = .ok (items', r) → r.length ≤ s.length := by
  intro fuel
  induction fuel with
  | zero => intro items s items' r h; exact Except.noConfusion h
  | succ fuel ih =>
    intro items s items' r h
    simp only [parseInnerListLoopF] at h
    split at h
    · exact Except.noConfusion h
    · next c rest h1 =>
      have hcr : (c :: rest).length ≤ s.length := h1 ▸ skipSpaces_length s
      split at h
      · simp only [Except.ok.injEq, Prod.mk.injEq] at h
        obtain ⟨-, h2⟩ := h
        subst h2
        simp only [List.length_cons] at hcr
        omega
      · split at h
        · exact Except.noConfusion h
        · next it s2 h2 =>
          have hi := parseItem_length h2
          have := ih _ _ h
          simp only [List.length_cons] at hcr hi
          omega

theorem parseInnerListLoopF_congr :
    ∀ (f g : Nat) (items : List Item) (s : List Nat), s.length < f → s.length < g →
      parseInnerListLoopF f items s = parseInnerListLoopF g items s := by
  intro f
  induction f with
  | zero => intro g items s hf; omega
  | succ f ih =>
    intro g items s hf hg
    match g, hg with
    | g + 1, hg =>
      simp only [parseInnerListLoopF]
      split
      · rfl
      · next c rest h1 =>
        have hcr : (c :: rest).length ≤ s.length := h1 ▸ skipSpaces_length s
        split
        · rfl
        · split
          · rfl
          · next it s2 h2 =>
            have hi := parseItem_length h2
            apply ih
            · simp only [List.length_cons] at hcr hi
              omega
            · simp only [List.length_cons] at hcr hi
              omega

/-- parseInnerList: an opening parenthesis, the item loop up to the
closing parenthesis, then the inner list's own parameters. -/
def parseInnerList (s : List Nat) : Except Err (InnerList × List Nat) :=
  match s with
  | [] => .error .unexpectedEOL
  | c :: rest =>
    if c = 40 then
      match parseInnerListLoopF (rest.length + 1) [] rest with
      | .error e => .error e
      | .ok (items, s2) =>
        match parseParams s2 with
        | .error e => .error e
        | .ok (p, s3) => .ok (⟨items, p⟩, s3)
    else .error .unrecognized

theorem parseInnerList_length {s r : List Nat} {il : InnerList}
    (h : parseInnerList s = .ok (il, r)) : r.length < s.length := by
  unfold parseInnerList at h
  split at h
  · exact Except.noConfusion h
  · next c rest =>
    split at h
    · split at h
      · exact Except.noConfusion h
      · next items s2 heq1 =>
        split at h
        · exact Except.noConfusion h
        · next p s3 heq2 =>
          simp only [Except.ok.injEq, Prod.mk.injEq] at h
          obtain ⟨-, h2⟩ := h
          subst h2
          have := parseInnerListLoopF_length _ _ _ heq1
          have := parseParams_length heq2
          simp only [List.length_cons]
          omega
    · exact Except.noConfusion h

/-- parseMember: skip spaces (end of input is UnexpectedEOL); a leading
open parenthesis selects the inner-list parser, anything else the item
parser. -/
def parseMember (s : List Nat) : Except Err (Member × List Nat) :=
  match skipSpaces s with
  | [] => .error .unexpectedEOL
  | c :: rest =>
    if c = 40 then
      match parseInnerList (c :: rest) with
      | .error e => .error e
      | .ok (il, s2) => .ok (.innerList il, s2)
    else
      match parseItem (c :: rest) with
      | .error e => .error e
      | .ok (it, s2) => .ok (.item it, s2)

theorem parseMember_length {s r : List Nat} {m : Member}
    (h : parseMember s = .ok (m, r)) : r.length < s.length := by
  unfold parseMember at h
  split at h
  · exact Except.noConfusion h
  · next c rest heq =>
    have hcr : (c :: rest).length ≤ s.length := heq ▸ skipSpaces_length s
    split at h
    · split at h
      · exact Except.noConfusion h
      · next il s2 heq2 =>
        simp only [Except.ok.injEq, Prod.mk.injEq] at h
        obtain ⟨-, h2⟩ := h
        subst h2
        exact Nat.lt_of_lt_of_le (parseInnerList_length heq2) hcr
    · split at h
      · exact Except.noConfusion h
      · next it s2 heq2 =>
        simp only [Except.ok.injEq, Prod.mk.injEq] at h
        obtain ⟨-, h2⟩ := h
        subst h2
        exact Nat.lt_of_lt_of_le (parseItem_length heq2) hcr

/-- parsePair: a key; an equals sign introduces an explicit member value,
otherwise the value is the implicit Bool-true item carrying any
parameters found right after the key. -/
def parsePair (s : List Nat) : Except Err (Pair × List Nat) :=
  match parseKey s with
  | .error e => .error e
  | .ok (key, s1) =>
    if s1.head? = some 61 then
      match parseMember s1.tail with
      | .error e => .error e
      | .ok (v, s3) => .ok (⟨key, v⟩, s3)
    else
      match parseParams s1 with
      | .error e => .error e
      | .ok (p, s3) => .ok (⟨key, .item ⟨.bool true, p⟩⟩, s3)

theorem parsePair_length {s r : List Nat} {pr : Pair}
    (h : parsePair s = .ok (pr, r)) : r.length ≤ s.length := by
  unfold parsePair at h
  split at h
  · exact Except.noConfusion h
  · next key s1 heq1 =>
    have hk := parseKey_length heq1
    have htl : s1.tail.length ≤ s1.length := by
      cases s1 <;> simp
    split at h
    · split at h
      · exact Except.noConfusion h
      · next v s3 heq2 =>
        simp only [Except.ok.injEq, Prod.mk.injEq] at h
        obtain ⟨-, h2⟩ := h
        subst h2
        have := parseMember_length heq2
        omega
    · split at h
      · exact Except.noConfusion h
      · next p s3 heq2 =>
        simp only [Except.ok.injEq, Prod.mk.injEq] at h
        obtain ⟨-, h2⟩ := h
        subst h2
        have := parseParams_length heq2
        omega

/-! ## Top-level entry points -/

/-- The loop of ParseDictLine: parse a pair, upsert it via Dict.Add, skip
spaces, continue only past a comma. -/
def parseDictLoopF : Nat → Dict → List Nat → Except Err Dict
  | 0, _, _ => .error .unexpectedEOL
  | fuel + 1, dict, s =>
    match parsePair s with
    | .error e => .error e
    | .ok (pair, s1) =>
      if (skipSpaces s1).head? = some 44 then
        parseDictLoopF fuel (Dict.Add dict pair.key pair.value) (skipSpaces s1).tail
      else .ok (Dict.Add dict pair.key pair.value)

/-- ParseDictLine: leading spaces then an empty dictionary on exhausted
input, otherwise the pair loop. -/
def ParseDictLine (s : List Nat) : Except Err Dict :=
  match skipSpaces s with
  | [] => .ok []
  | c :: rest => parseDictLoopF ((c :: rest).length + 1) [] (c :: rest)

theorem parseDictLoopF_congr :
    ∀ (f g : Nat) (dict : Dict) (s : List Nat), s.length < f → s.length < g →
      parseDictLoopF f dict s = parseDictLoopF g dict s := by
  intro f
  induction f with
  | zero => intro g dict s hf; omega
  | succ f ih =>
    intro g dict s hf hg
    match g, hg with
    | g + 1, hg =>
      simp only [parseDictLoopF]
      split
      · rfl
      · next pair s1 h1 =>
        have hp := parsePair_length h1
        split
        · next h2 =>
          have hs : (skipSpaces s1).length ≤ s1.length := skipSpaces_length s1
          have htl : (skipSpaces s1).tail.length + 1 = (skipSpaces s1).length := by
            cases hss : skipSpaces s1 with
            | nil => rw [hss] at h2; exact absurd h2 (by simp)
            | cons c r => simp
          apply ih
          · omega
          · omega
        · rfl

/-- The loop of ParseListLine: parse a member, append it, skip spaces,
continue only past a comma. -/
def parseListLoopF : Nat → SList → List Nat → Except Err SList
  | 0, _, _ => .error .unexpectedEOL
  | fuel + 1, list, s =>
    match parseMember s with
    | .error e => .error e
    | .ok (m, s1) =>
      if (skipSpaces s1).head? = some 44 then
        parseListLoopF fuel (list ++ [m]) (skipSpaces s1).tail
      else .ok (list ++ [m])

/-- ParseListLine: leading spaces then an empty list on exhausted input,
otherwise the member loop. -/
def ParseListLine (s : List Nat) : Except Err SList :=
  match skipSpaces s with
  | [] => .ok []
  | c :: rest => parseListLoopF ((c :: rest).length + 1) [] (c :: rest)

theorem parseListLoopF_congr :
    ∀ (f g : Nat) (list : SList) (s : List Nat), s.length < f → s.length < g →
      parseListLoopF f list s = parseListLoopF g list s := by
  intro f
  induction f with
  | zero => intro g list s hf; omega
  | succ f ih =>
    intro g list s hf hg
    match g, hg with
    | g + 1, hg =>
      simp only [parseListLoopF]
      split
      · rfl
      · next m s1 h1 =>
        have hp := parseMember_length h1
        split
        · next h2 =>
          have hs : (skipSpaces s1).length ≤ s1.length := skipSpaces_length s1
          have htl : (skipSpaces s1).tail.length + 1 = (skipSpaces s1).length := by
            cases hss : skipSpaces s1 with
            | nil => rw [hss] at h2; exact absurd h2 (by simp)
            | cons c r => simp
          apply ih
          · omega
          · omega
        · rfl

/-- ParseItemLine: one item, then only spaces may remain. -/
def ParseItemLine (s : List Nat) : Except Err Item :=
  match parseItem s with
  | .error e => .error e
  | .ok (it, rest) =>
    if skipSpaces rest = [] then .ok it else .error .unrecognized

/-! ## Encoders

One rendering function per value-model type, translated from the Encode
methods of the Go value model. -/

/-- Integer encoding (strconv.FormatInt base 10). -/
def integerEncode (n : Int) : List Nat :=
  (if n < 0 then [45] else []) ++ natDigits n.natAbs

/-- remTrailZeros drops a trailing zero byte, or two, from an encoded
decimal (the input always ends in the three rendered fractional
digits). -/
def remTrailZeros (d : List Nat) : List Nat :=
  if d.getLast? = some 48 then
    if d.dropLast.getLast? = some 48 then d.dropLast.dropLast else d.dropLast
  else d

/-- Decimal encoding: sign, integer part, dot, then the fractional part
rendered with leading zeros to three digits (one digit when the
fractional part is zero), with trailing zeros stripped. -/
def decimalEncode (x : Int) : List Nat :=
  if x.natAbs % 1000 = 0 then
    (if x < 0 then [45] else []) ++ natDigits (x.natAbs / 1000) ++ [46, 48]
  else if x.natAbs % 1000 < 10 then
    remTrailZeros ((if x < 0 then [45] else []) ++ natDigits (x.natAbs / 1000) ++
      [46, 48, 48] ++ natDigits (x.natAbs % 1000))
  else if x.natAbs % 1000 < 100 then
    remTrailZeros ((if x < 0 then [45] else []) ++ natDigits (x.natAbs / 1000) ++
      [46, 48] ++ natDigits (x.natAbs % 1000))
  else
    remTrailZeros ((if x < 0 then [45] else []) ++ natDigits (x.natAbs / 1000) ++
      [46] ++ natDigits (x.natAbs % 1000))

/-- Lowercase hex digit byte. -/
def hexDigit (n : Nat) : Nat := if n < 10 then n + 48 else n - 10 + 97

/-- One byte of strconv.QuoteToASCII: quote and backslash get a
backslash escape, other printable ASCII is verbatim, anything else is
hex-escaped. -/
def escByte (c : Nat) : List Nat :=
  if c = 34 ∨ c = 92 then [92, c]
  else if isPrint c then [c]
  else [92, 120, hexDigit (c / 16), hexDigit (c % 16)]

/-- String encoding (strconv.QuoteToASCII restricted to byte content). -/
def stringEncode (s : List Nat) : List Nat :=
  34 :: (s.map escByte).flatten ++ [34]

/-- Byte-sequence encoding: Base-64 between colons. -/
def byteSeqEncode (b : List Nat) : List Nat :=
  58 :: base64Encode b ++ [58]

/-- Boolean encoding: ?1 / ?0. -/
def boolEncode (b : Bool) : List Nat :=
  if b then [63, 49] else [63, 48]

/-- BareItem.Encode dispatches on the variant; a Token is stored
verbatim. -/
def BareItem.Encode : BareItem → List Nat
  | .integer n => integerEncode n
  | .decimal n => decimalEncode n
  | .string s => stringEncode s
  | .token s => s
  | .byteSeq b => byteSeqEncode b
  | .bool b => boolEncode b

/-- Param.Encode omits the value exactly when it is Bool true. -/
def Param.Encode (p : Param) : List Nat :=
  match p.value with
  | .bool true => p.key
  | v => p.key ++ (61 :: BareItem.Encode v)

/-- ParamList.Encode: each parameter prefixed by a semicolon (the Go
code renders a leading semicolon and joins with semicolons, which is the
same byte string). -/
def ParamList.Encode : ParamList → List Nat
  | [] => []
  | p :: ps => (59 :: Param.Encode p) ++ ParamList.Encode ps

/-- Item.Encode: bare item then parameters. -/
def Item.Encode (i : Item) : List Nat :=
  BareItem.Encode i.bare ++ ParamList.Encode i.params

/-- The items of an inner list joined by single spaces. -/
def innerItemsJoin : List Item → List Nat
  | [] => []
  | [i] => Item.Encode i
  | i :: rest => Item.Encode i ++ (32 :: innerItemsJoin rest)

/-- InnerList.Encode: parenthesized space-joined items, then the inner
list's parameters (the empty-items case renders the bare
parentheses). -/
def InnerList.Encode (il : InnerList) : List Nat :=
  (40 :: innerItemsJoin il.items) ++ (41 :: ParamList.Encode il.params)

/-- Member.Encode dispatches to the item or inner-list encoder. -/
def Member.Encode : Member → List Nat
  | .item i => Item.Encode i
  | .innerList il => InnerList.Encode il

/-- Pair.Encode: the implicit Bool-true item renders as the bare key
followed by the item's parameters; any other value as key, equals sign,
value. -/
def Pair.Encode (p : Pair) : List Nat :=
  match p.value with
  | .item ⟨.bool true, ps⟩ => p.key ++ ParamList.Encode ps
  | v => p.key ++ (61 :: Member.Encode v)

/-- Dict.Encode: pairs joined by comma-space. -/
def Dict.Encode : Dict → List Nat
  | [] => []
  | [p] => Pair.Encode p
  | p :: ps => Pair.Encode p ++ (44 :: 32 :: Dict.Encode ps)

/-- SList.Encode: members joined by comma-space (List.Encode in Go). -/
def SList.Encode : SList → List Nat
  | [] => []
  | [m] => Member.Encode m
  | m :: ms => Member.Encode m ++ (44 :: 32 :: SList.Encode ms)

/-! ## Validity of constructed value trees

The round-trip law quantifies over valid trees: keys from the key
character set, tokens from the token character set with a token/key
start character, strings of printable ASCII, numbers within the 15-digit
budget, byte sequences of bytes, and Dict/ParamList key sets free of
duplicates (an Add-built container never holds two entries with one
key). -/

def validKey (k : List Nat) : Bool :=
  match k with
  | [] => false
  | c :: _ => (c = 42 || isLower c) && k.all isKeyChar

/-- Number of fractional digits the decimal encoder keeps for a
fractional part f (out of 1000): 3 unless f ends in zeros. -/
def fracLen (f : Nat) : Nat :=
  if f % 10 ≠ 0 then 3 else if f % 100 ≠ 0 then 2 else 1

def validBare : BareItem → Bool
  | .integer n => digitCount n.natAbs ≤ 15
  | .decimal d => digitCount (d.natAbs / 1000) + fracLen (d.natAbs % 1000) ≤ 15
  | .string s => s.all isPrint
  | .token t =>
    match t with
    | [] => false
    | c :: _ => (c = 42 || isAlpha c) && t.all isTokenChar
  | .byteSeq b => b.all (fun x => x < 256)
  | .bool _ => true

def noDupKeys : List (List Nat) → Bool
  | [] => true
  | k :: ks => (!ks.contains k) && noDupKeys ks

def validParam (p : Param) : Bool := validKey p.key && validBare p.value

def validParamList (ps : ParamList) : Bool :=
  ps.all validParam && noDupKeys (ps.map Param.key)

def validItem (it : Item) : Bool := validBare it.bare && validParamList it.params

def validInnerList (il : InnerList) : Bool :=
  il.items.all validItem && validParamList il.params

def validMember : Member → Bool
  | .item i => validItem i
  | .innerList il => validInnerList il

def validPair (pr : Pair) : Bool := validKey pr.key && validMember pr.value

def validDict (d : Dict) : Bool := d.all validPair && noDupKeys (d.map Pair.key)

def validSList (l : SList) : Bool := l.all validMember

/-- All-space strings (only byte 32). -/
def isSpaces (s : List Nat) : Bool := s.all (fun c => c == 32)

/-- The character classes that can start an encoded bare item. -/
def bareStart (c : Nat) : Bool :=
  c = 45 || isDigit c || c = 34 || c = 42 || isAlpha c || c = 58 || c = 63

theorem bareStart_ranges {c : Nat} (h : bareStart c = true) :
    c ≠ 32 ∧ c ≠ 40 ∧ c ≠ 41 ∧ c ≠ 44 ∧ c ≠ 59 ∧ c ≠ 61 := by
  simp only [bareStart, isDigit, isAlpha, isLower, isUpper, Bool.or_eq_true,
    decide_eq_true_eq, Bool.and_eq_true] at h
  omega

theorem keyChar_tokenChar {c : Nat} (h : isKeyChar c = true) : isTokenChar c = true := by
  simp only [isKeyChar, isTokenChar, isAlpha, isLower, isUpper, isDigit,
    Bool.or_eq_true, decide_eq_true_eq, Bool.and_eq_true] at h ⊢
  omega

theorem tokenChar_ranges {c : Nat} (h : isTokenChar c = false) :
    isDigit c = false ∧ c ≠ 46 ∧ isKeyChar c = false := by
  refine ⟨?_, ?_, ?_⟩
  · by_contra hd
    simp only [isTokenChar, isDigit, isAlpha, isLower, isUpper,
      Bool.or_eq_true, Bool.or_eq_false_iff, decide_eq_true_eq,
      decide_eq_false_iff_not, Bool.and_eq_true, Bool.and_eq_false_iff] at h hd
    omega
  · rintro rfl
    exact absurd h (by decide)
  · by_contra hk
    rw [keyChar_tokenChar (by revert hk; cases isKeyChar c <;> simp)] at h
    exact Bool.noConfusion h

/-! ## skipSpaces and take/drop run lemmas -/

theorem skipSpaces_nil : skipSpaces [] = [] := rfl

theorem skipSpaces_cons_space (s : List Nat) : skipSpaces (32 :: s) = skipSpaces s := rfl

theorem skipSpaces_cons_ne {c : Nat} (s : List Nat) (h : c ≠ 32) :
    skipSpaces (c :: s) = c :: s := by
  simp [skipSpaces, List.dropWhile_cons, h]

theorem skipSpaces_spaces_append (sp t : List Nat)
    (h : isSpaces sp = true) : skipSpaces (sp ++ t) = skipSpaces t := by
  induction sp with
  | nil => rfl
  | cons c rest ih =>
    simp only [isSpaces, List.all_cons, Bool.and_eq_true, beq_iff_eq] at h
    obtain ⟨rfl, h2⟩ := h
    rw [List.cons_append, skipSpaces_cons_space]
    exact ih h2

theorem skipSpaces_of_spaces {sp : List Nat} (h : isSpaces sp = true) :
    skipSpaces sp = [] := by
  have := skipSpaces_spaces_append sp [] h
  simpa using this

/-- A run of characters satisfying p followed by a rest that does not
start with one splits exactly at the boundary. -/
theorem takeWhile_run_append (p : Nat → Bool) :
    ∀ (k rest : List Nat), k.all p = true →
      (∀ c cs, rest = c :: cs → p c = false) →
      (k ++ rest).takeWhile p = k ∧ (k ++ rest).dropWhile p = rest := by
  intro k
  induction k with
  | nil =>
    intro rest _ hrest
    constructor
    · match rest with
      | [] => rfl
      | c :: cs => simp [List.takeWhile_cons, hrest c cs rfl]
    · match rest with
      | [] => rfl
      | c :: cs => simp [List.dropWhile_cons, hrest c cs rfl]
  | cons c k ih =>
    intro rest hall hrest
    simp only [List.all_cons, Bool.and_eq_true] at hall
    obtain ⟨hc, hall⟩ := hall
    obtain ⟨h1, h2⟩ := ih rest hall hrest
    constructor
    · simp [List.takeWhile_cons, hc, h1]
    · simp [List.dropWhile_cons, hc, h2]

/-! ## Number lemmas -/

/-- The fractional digits the decimal encoder keeps for a fractional
part f < 1000 (after stripping trailing zeros). -/
def fracDigits (f : Nat) : List Nat :=
  if f % 10 ≠ 0 then [f / 100 + 48, f / 10 % 10 + 48, f % 10 + 48]
  else if f % 100 ≠ 0 then [f / 100 + 48, f / 10 % 10 + 48]
  else [f / 100 + 48]

theorem fracDigits_length (f : Nat) : (fracDigits f).length = fracLen f := by
  unfold fracDigits fracLen
  split_ifs <;> rfl

theorem fracLen_bounds (f : Nat) : 1 ≤ fracLen f ∧ fracLen f ≤ 3 := by
  unfold fracLen
  split_ifs <;> omega

theorem fracDigits_all (f : Nat) (h : f < 1000) : (fracDigits f).all isDigit = true := by
  unfold fracDigits
  split_ifs <;> simp [isDigit] <;> omega

theorem remTrailZeros_append2 (x : List Nat) (a b : Nat) :
    remTrailZeros (x ++ [a, b]) =
      x ++ (if b = 48 then (if a = 48 then [] else [a]) else [a, b]) := by
  have hx : x ++ [a, b] = (x ++ [a]) ++ [b] := by simp
  have h1 : (x ++ [a, b]).getLast? = some b := by
    rw [hx]; exact List.getLast?_concat _
  have h2 : (x ++ [a, b]).dropLast = x ++ [a] := by
    rw [hx]; exact List.dropLast_concat
  have h3 : (x ++ [a]).getLast? = some a := List.getLast?_concat _
  have h4 : (x ++ [a]).dropLast = x := List.dropLast_concat
  unfold remTrailZeros
  rw [h1, h2, h3, h4]
  by_cases hb : b = 48
  · by_cases ha : a = 48
    · simp [hb, ha]
    · simp [hb, ha]
  · simp [hb]

theorem natDigits_two {n : Nat} (h1 : 10 ≤ n) (h2 : n < 100) :
    natDigits n = [n / 10 + 48, n % 10 + 48] := by
  rw [natDigits_ge10 h1, natDigits_lt10 (show n / 10 < 10 by omega)]
  rfl

theorem natDigits_three {n : Nat} (h1 : 100 ≤ n) (h2 : n < 1000) :
    natDigits n = [n / 100 + 48, n / 10 % 10 + 48, n % 10 + 48] := by
  rw [natDigits_ge10 (by omega),
    natDigits_two (show 10 ≤ n / 10 by omega) (show n / 10 < 100 by omega)]
  have e1 : n / 10 / 10 = n / 100 := by
    rw [Nat.div_div_eq_div_mul]
  have e2 : n / 10 % 10 = n / 10 % 10 := rfl
  rw [e1]
  rfl

theorem remTrailZeros_full3 (pre : List Nat) {fp : Nat} (_h0 : fp ≠ 0) (_hlt : fp < 1000) :
    remTrailZeros (pre ++ (46 :: [fp / 100 + 48, fp / 10 % 10 + 48, fp % 10 + 48])) =
      pre ++ (46 :: fracDigits fp) := by
  have hsh : pre ++ (46 :: [fp / 100 + 48, fp / 10 % 10 + 48, fp % 10 + 48]) =
      (pre ++ [46, fp / 100 + 48]) ++ [fp / 10 % 10 + 48, fp % 10 + 48] := by
    simp
  rw [hsh, remTrailZeros_append2]
  unfold fracDigits
  by_cases hb : fp % 10 = 0
  · by_cases ha : fp % 100 = 0
    · rw [if_pos (by omega), if_pos (by omega), if_neg (by omega), if_neg (by omega)]
      simp
    · rw [if_pos (by omega), if_neg (by omega), if_neg (by omega), if_pos (by omega)]
      simp
  · rw [if_neg (by omega), if_pos (by omega)]
    simp

theorem decimalEncode_eq (x : Int) :
    decimalEncode x =
      (if x < 0 then [45] else []) ++ natDigits (x.natAbs / 1000) ++
        (46 :: fracDigits (x.natAbs % 1000)) := by
  have hfp : x.natAbs % 1000 < 1000 := Nat.mod_lt _ (by omega)
  unfold decimalEncode
  by_cases h0 : x.natAbs % 1000 = 0
  · rw [if_pos h0]
    have hf : fracDigits (x.natAbs % 1000) = [48] := by rw [h0]; rfl
    rw [hf]
  · rw [if_neg h0]
    by_cases h10 : x.natAbs % 1000 < 10
    · rw [if_pos h10, natDigits_lt10 h10]
      have hsh : (if x < 0 then ([45] : List Nat) else []) ++ natDigits (x.natAbs / 1000) ++
          [46, 48, 48] ++ [x.natAbs % 1000 + 48] =
          ((if x < 0 then [45] else []) ++ natDigits (x.natAbs / 1000)) ++
            (46 :: [x.natAbs % 1000 / 100 + 48, x.natAbs % 1000 / 10 % 10 + 48,
              x.natAbs % 1000 % 10 + 48]) := by
        have e1 : x.natAbs % 1000 / 100 = 0 := by omega
        have e2 : x.natAbs % 1000 / 10 % 10 = 0 := by omega
        have e3 : x.natAbs % 1000 % 10 = x.natAbs % 1000 := by omega
        rw [e1, e2, e3]
        simp
      rw [hsh, remTrailZeros_full3 _ h0 hfp]
    · rw [if_neg h10]
      by_cases h100 : x.natAbs % 1000 < 100
      · rw [if_pos h100, natDigits_two (by omega) h100]
        have hsh : (if x < 0 then ([45] : List Nat) else []) ++ natDigits (x.natAbs / 1000) ++
            [46, 48] ++ [x.natAbs % 1000 / 10 + 48, x.natAbs % 1000 % 10 + 48] =
            ((if x < 0 then [45] else []) ++ natDigits (x.natAbs / 1000)) ++
              (46 :: [x.natAbs % 1000 / 100 + 48, x.natAbs % 1000 / 10 % 10 + 48,
                x.natAbs % 1000 % 10 + 48]) := by
          have e1 : x.natAbs % 1000 / 100 = 0 := by omega
          have e2 : x.natAbs % 1000 / 10 % 10 = x.natAbs % 1000 / 10 := by omega
          rw [e1, e2]
          simp
        rw [hsh, remTrailZeros_full3 _ h0 hfp]
      · rw [if_neg h100, natDigits_three (by omega) hfp]
        have hsh : (if x < 0 then ([45] : List Nat) else []) ++ natDigits (x.natAbs / 1000) ++
            [46] ++ [x.natAbs % 1000 / 100 + 48, x.natAbs % 1000 / 10 % 10 + 48,
              x.natAbs % 1000 % 10 + 48] =
            ((if x < 0 then [45] else []) ++ natDigits (x.natAbs / 1000)) ++
              (46 :: [x.natAbs % 1000 / 100 + 48, x.natAbs % 1000 / 10 % 10 + 48,
                x.natAbs % 1000 % 10 + 48]) := by
          simp
        rw [hsh, remTrailZeros_full3 _ h0 hfp]

theorem parseNumberLoop_cons_none (sb : List Nat) (c : Nat) (rest : List Nat) :
    parseNumberLoop sb none (c :: rest) =
      if isDigit c then
        if sb.length = 15 then .error .tooManyDigits
        else parseNumberLoop (sb ++ [c]) none rest
      else if c = 46 then parseNumberLoop sb (some 0) rest
      else .ok (sb, none, c :: rest) := rfl

theorem parseNumberLoop_cons_some (sb : List Nat) (j : Nat) (c : Nat) (rest : List Nat) :
    parseNumberLoop sb (some j) (c :: rest) =
      if isDigit c then
        if sb.length = 15 then .error .tooManyDigits
        else if j = 3 then .error .tooManyDigits
        else parseNumberLoop (sb ++ [c]) (some (j + 1)) rest
      else .ok (sb, some j, c :: rest) := by
  rw [parseNumberLoop]
  by_cases hd : isDigit c
  · simp [hd]
  · simp only [hd, Bool.false_eq_true, if_false]
    by_cases hc : c = 46 <;> simp [hc]

theorem parseNumberLoop_stop (sb : List Nat) (dp : Option Nat) {rest : List Nat}
    (h : ∀ c cs, rest = c :: cs → isDigit c = false ∧ c ≠ 46) :
    parseNumberLoop sb dp rest = .ok (sb, dp, rest) := by
  match rest with
  | [] => cases dp <;> rfl
  | c :: cs =>
    obtain ⟨h1, h2⟩ := h c cs rfl
    cases dp with
    | none =>
      rw [parseNumberLoop_cons_none, if_neg (by simp [h1]), if_neg h2]
    | some j =>
      rw [parseNumberLoop_cons_some, if_neg (by simp [h1])]

theorem parseNumberLoop_absorb_none :
    ∀ (ds sb rest : List Nat), ds.all isDigit = true →
      sb.length + ds.length ≤ 15 →
      parseNumberLoop sb none (ds ++ rest) = parseNumberLoop (sb ++ ds) none rest := by
  intro ds
  induction ds with
  | nil => intro sb rest _ _; simp
  | cons d ds ih =>
    intro sb rest hall hlen
    simp only [List.all_cons, Bool.and_eq_true] at hall
    obtain ⟨hd, hall⟩ := hall
    rw [List.cons_append, parseNumberLoop_cons_none, if_pos hd,
      if_neg (by simp only [List.length_cons] at hlen; omega),
      ih (sb ++ [d]) rest hall (by simp only [List.length_append, List.length_cons,
        List.length_nil] at hlen ⊢; omega)]
    simp

theorem parseNumberLoop_absorb_some :
    ∀ (ds sb rest : List Nat) (j : Nat), ds.all isDigit = true →
      sb.length + ds.length ≤ 15 → j + ds.length ≤ 3 →
      parseNumberLoop sb (some j) (ds ++ rest) =
        parseNumberLoop (sb ++ ds) (some (j + ds.length)) rest := by
  intro ds
  induction ds with
  | nil => intro sb rest j _ _ _; simp
  | cons d ds ih =>
    intro sb rest j hall hlen hj
    simp only [List.all_cons, Bool.and_eq_true] at hall
    obtain ⟨hd, hall⟩ := hall
    rw [List.cons_append, parseNumberLoop_cons_some, if_pos hd,
      if_neg (by simp only [List.length_cons] at hlen; omega),
      if_neg (by simp only [List.length_cons] at hj; omega),
      ih (sb ++ [d]) rest (j + 1) hall
        (by simp only [List.length_append, List.length_cons, List.length_nil] at hlen ⊢; omega)
        (by simp only [List.length_cons] at hj; omega)]
    have e1 : sb ++ [d] ++ ds = sb ++ (d :: ds) := by simp
    have e2 : j + 1 + ds.length = j + (d :: ds).length := by simp; omega
    rw [e1, e2]

theorem natDigits_head (n : Nat) :
    ∃ d ds, natDigits n = d :: ds ∧ isDigit d = true := by
  match hnd : natDigits n with
  | [] => exact absurd hnd (natDigits_ne_nil n)
  | d :: ds =>
    refine ⟨d, ds, rfl, ?_⟩
    have := natDigits_all_digits n
    rw [hnd] at this
    simp only [List.all_cons, Bool.and_eq_true] at this
    exact this.1

theorem isDigit_ranges {d : Nat} (h : isDigit d = true) :
    48 ≤ d ∧ d ≤ 57 := by
  simpa [isDigit, Bool.and_eq_true, decide_eq_true_eq] using h

/-- Completeness of parseNumber on an encoded integer: provided the
following byte is not a digit, a dot, or a minus (no token character
qualifies), the encoded integer parses back exactly. -/
theorem parseNumber_complete_int {n : Int} {rest : List Nat}
    (hv : digitCount n.natAbs ≤ 15)
    (hrest : ∀ c cs, rest = c :: cs → isDigit c = false ∧ c ≠ 46) :
    parseNumber (integerEncode n ++ rest) = .ok (.integer n, rest) := by
  obtain ⟨d, ds, hnd, hd⟩ := natDigits_head n.natAbs
  have habs : parseNumberLoop [] none (natDigits n.natAbs ++ rest) =
      .ok (natDigits n.natAbs, none, rest) := by
    rw [parseNumberLoop_absorb_none (natDigits n.natAbs) [] rest
      (natDigits_all_digits _) (by simpa [digitCount] using hv)]
    simp only [List.nil_append]
    exact parseNumberLoop_stop _ _ hrest
  have htail : ∀ sign : Int, parseNumberTail sign (natDigits n.natAbs ++ rest) =
      .ok (.integer (sign * (n.natAbs : Nat)), rest) := by
    intro sign
    rw [hnd, List.cons_append, parseNumberTail, if_pos hd]
    rw [← List.cons_append, ← hnd, habs]
    simp [digitsToNat_natDigits]
  by_cases hn : n < 0
  · have henc : integerEncode n ++ rest = 45 :: (natDigits n.natAbs ++ rest) := by
      unfold integerEncode
      rw [if_pos hn]
      simp
    rw [henc, parseNumber, if_pos (Or.inl rfl), if_pos rfl, if_pos rfl, htail]
    have habs2 : ((n.natAbs : Int)) = -n := Int.ofNat_natAbs_of_nonpos (by omega)
    rw [habs2]
    simp
  · have henc : integerEncode n ++ rest = natDigits n.natAbs ++ rest := by
      unfold integerEncode
      rw [if_neg hn]
      simp
    have hd45 : d ≠ 45 := by
      have := isDigit_ranges hd
      omega
    rw [henc, hnd, List.cons_append, parseNumber, if_pos (Or.inr hd),
      if_neg hd45, if_neg hd45, ← List.cons_append, ← hnd, htail]
    have habs2 : ((n.natAbs : Int)) = n := Int.natAbs_of_nonneg (by omega)
    rw [habs2]
    simp

theorem parseNumber_complete_dec {x : Int} {rest : List Nat}
    (hv : digitCount (x.natAbs / 1000) + fracLen (x.natAbs % 1000) ≤ 15)
    (hrest : ∀ c cs, rest = c :: cs → isDigit c = false ∧ c ≠ 46) :
    parseNumber (decimalEncode x ++ rest) = .ok (.decimal x, rest) := by
  have hfp : x.natAbs % 1000 < 1000 := Nat.mod_lt _ (by omega)
  have hLb := fracLen_bounds (x.natAbs % 1000)
  have hdc : digitCount (x.natAbs / 1000) = (natDigits (x.natAbs / 1000)).length := rfl
  have habs : parseNumberLoop [] none
      (natDigits (x.natAbs / 1000) ++ (46 :: (fracDigits (x.natAbs % 1000) ++ rest))) =
      .ok (natDigits (x.natAbs / 1000) ++ fracDigits (x.natAbs % 1000),
        some (fracLen (x.natAbs % 1000)), rest) := by
    rw [parseNumberLoop_absorb_none _ _ _ (natDigits_all_digits _)
      (by simp only [List.length_nil]; omega)]
    rw [List.nil_append, parseNumberLoop_cons_none, if_neg (by decide), if_pos rfl]
    rw [parseNumberLoop_absorb_some _ _ _ 0 (fracDigits_all _ hfp)
      (by rw [fracDigits_length]; omega)
      (by rw [fracDigits_length]; omega)]
    rw [parseNumberLoop_stop _ _ hrest, Nat.zero_add, fracDigits_length]
  have htail : ∀ sign : Int,
      parseNumberTail sign
        (natDigits (x.natAbs / 1000) ++ (46 :: (fracDigits (x.natAbs % 1000) ++ rest))) =
        .ok (.decimal (sign * (x.natAbs : Int)), rest) := by
    intro sign
    obtain ⟨d, ds, hnd, hd⟩ := natDigits_head (x.natAbs / 1000)
    rw [hnd, List.cons_append, parseNumberTail, if_pos hd, ← List.cons_append, ← hnd, habs]
    have hvala : digitsToNat (natDigits (x.natAbs / 1000) ++ fracDigits (x.natAbs % 1000)) =
        x.natAbs / 1000 * 10 ^ fracLen (x.natAbs % 1000) +
          digitsToNat (fracDigits (x.natAbs % 1000)) := by
      rw [digitsToNat_append, digitsToNat_natDigits, fracDigits_length]
    by_cases h10 : x.natAbs % 1000 % 10 ≠ 0
    · have hL : fracLen (x.natAbs % 1000) = 3 := by
        unfold fracLen
        rw [if_pos h10]
      have hfd : digitsToNat (fracDigits (x.natAbs % 1000)) = x.natAbs % 1000 := by
        unfold fracDigits
        rw [if_pos h10]
        simp [digitsToNat]
        omega
      have hval : digitsToNat (natDigits (x.natAbs / 1000) ++ fracDigits (x.natAbs % 1000)) =
          x.natAbs := by
        rw [hvala, hfd, hL]
        omega
      rw [hL]
      simp only [hval]
    · by_cases h100 : x.natAbs % 1000 % 100 ≠ 0
      · have hL : fracLen (x.natAbs % 1000) = 2 := by
          unfold fracLen
          rw [if_neg h10, if_pos h100]
        have hfd : digitsToNat (fracDigits (x.natAbs % 1000)) = x.natAbs % 1000 / 10 := by
          unfold fracDigits
          rw [if_neg h10, if_pos h100]
          simp [digitsToNat]
          omega
        have hval : digitsToNat (natDigits (x.natAbs / 1000) ++ fracDigits (x.natAbs % 1000))
            * 10 = x.natAbs := by
          rw [hvala, hfd, hL]
          have e1 : (10 : Nat) ^ 2 = 100 := by norm_num
          rw [e1]
          omega
        have hvi : (sign * (digitsToNat (natDigits (x.natAbs / 1000) ++
            fracDigits (x.natAbs % 1000)) : Int) * 10) = sign * (x.natAbs : Int) := by
          have h3 : (digitsToNat (natDigits (x.natAbs / 1000) ++
              fracDigits (x.natAbs % 1000)) : Int) * 10 = (x.natAbs : Int) := by
            exact_mod_cast hval
          rw [← h3]
          ring
        rw [hL]
        simp only [hvi]
      · have hL : fracLen (x.natAbs % 1000) = 1 := by
          unfold fracLen
          rw [if_neg h10, if_neg h100]
        have hfd : digitsToNat (fracDigits (x.natAbs % 1000)) = x.natAbs % 1000 / 100 := by
          unfold fracDigits
          rw [if_neg h10, if_neg h100]
          simp [digitsToNat]
        have hval : digitsToNat (natDigits (x.natAbs / 1000) ++ fracDigits (x.natAbs % 1000))
            * 100 = x.natAbs := by
          rw [hvala, hfd, hL]
          have e1 : (10 : Nat) ^ 1 = 10 := by norm_num
          rw [e1]
          omega
        have hvi : (sign * (digitsToNat (natDigits (x.natAbs / 1000) ++
            fracDigits (x.natAbs % 1000)) : Int) * 100) = sign * (x.natAbs : Int) := by
          have h3 : (digitsToNat (natDigits (x.natAbs / 1000) ++
              fracDigits (x.natAbs % 1000)) : Int) * 100 = (x.natAbs : Int) := by
            exact_mod_cast hval
          rw [← h3]
          ring
        rw [hL]
        simp only [hvi]
  by_cases hn : x < 0
  · have henc : decimalEncode x ++ rest =
        45 :: (natDigits (x.natAbs / 1000) ++ (46 :: (fracDigits (x.natAbs % 1000) ++ rest))) := by
      rw [decimalEncode_eq, if_pos hn]
      simp
    rw [henc, parseNumber, if_pos (Or.inl rfl), if_pos rfl, if_pos rfl, htail]
    have habs2 : ((x.natAbs : Int)) = -x := Int.ofNat_natAbs_of_nonpos (by omega)
    rw [habs2]
    simp
  · have henc : decimalEncode x ++ rest =
        natDigits (x.natAbs / 1000) ++ (46 :: (fracDigits (x.natAbs % 1000) ++ rest)) := by
      rw [decimalEncode_eq, if_neg hn]
      simp
    obtain ⟨d, ds, hnd, hd⟩ := natDigits_head (x.natAbs / 1000)
    have hd45 : d ≠ 45 := by
      have := isDigit_ranges hd
      omega
    rw [henc, hnd, List.cons_append, parseNumber, if_pos (Or.inr hd),
      if_neg hd45, if_neg hd45, ← List.cons_append, ← hnd, htail]
    have habs2 : ((x.natAbs : Int)) = x := Int.natAbs_of_nonneg (by omega)
    rw [habs2]
    simp

/-! ## Digit-budget lemmas (the TooManyDigits conditions) -/

theorem parseNumberLoop_budget :
    ∀ (ds sb rest : List Nat) (dp : Option Nat), ds.all isDigit = true →
      16 ≤ sb.length + ds.length → sb.length ≤ 15 →
      (∀ j, dp = some j → j ≤ 3) →
      parseNumberLoop sb dp (ds ++ rest) = .error .tooManyDigits := by
  intro ds
  induction ds with
  | nil => intro sb rest dp _ h16 h15 _; simp at h16; omega
  | cons d ds ih =>
    intro sb rest dp hall h16 h15 hj
    simp only [List.all_cons, Bool.and_eq_true] at hall
    obtain ⟨hd, hall⟩ := hall
    by_cases hsb : sb.length = 15
    · cases dp with
      | none => rw [List.cons_append, parseNumberLoop_cons_none, if_pos hd, if_pos hsb]
      | some j => rw [List.cons_append, parseNumberLoop_cons_some, if_pos hd, if_pos hsb]
    · cases dp with
      | none =>
        rw [List.cons_append, parseNumberLoop_cons_none, if_pos hd, if_neg hsb]
        exact ih (sb ++ [d]) rest none hall
          (by simp only [List.length_append, List.length_cons, List.length_nil] at h16 ⊢; omega)
          (by simp; omega) (by intro j h; exact Option.noConfusion h)
      | some j =>
        by_cases hj3 : j = 3
        · rw [List.cons_append, parseNumberLoop_cons_some, if_pos hd, if_neg hsb, if_pos hj3]
        · rw [List.cons_append, parseNumberLoop_cons_some, if_pos hd, if_neg hsb, if_neg hj3]
          exact ih (sb ++ [d]) rest (some (j + 1)) hall
            (by simp only [List.length_append, List.length_cons, List.length_nil] at h16 ⊢; omega)
            (by simp; omega)
            (by intro j' h
                have hle := hj j rfl
                injection h with h'
                omega)

theorem parseNumberLoop_budget_frac :
    ∀ (ds sb rest : List Nat) (j : Nat), ds.all isDigit = true →
      j ≤ 3 → 4 ≤ j + ds.length →
      parseNumberLoop sb (some j) (ds ++ rest) = .error .tooManyDigits := by
  intro ds
  induction ds with
  | nil => intro sb rest j _ hj h4; simp at h4; omega
  | cons d ds ih =>
    intro sb rest j hall hj h4
    simp only [List.all_cons, Bool.and_eq_true] at hall
    obtain ⟨hd, hall⟩ := hall
    by_cases hsb : sb.length = 15
    · rw [List.cons_append, parseNumberLoop_cons_some, if_pos hd, if_pos hsb]
    · by_cases hj3 : j = 3
      · rw [List.cons_append, parseNumberLoop_cons_some, if_pos hd, if_neg hsb, if_pos hj3]
      · rw [List.cons_append, parseNumberLoop_cons_some, if_pos hd, if_neg hsb, if_neg hj3]
        exact ih (sb ++ [d]) rest (j + 1) hall (by omega)
          (by simp only [List.length_cons] at h4; omega)

/-! ## String, token, key, byte-sequence, boolean completeness -/

theorem parseStringLoop_quote (acc rest : List Nat) :
    parseStringLoop acc (34 :: rest) = .ok (acc, rest) := by
  rw [parseStringLoop_cons, if_pos rfl]

theorem parseStringLoop_esc (acc : List Nat) (d : Nat) (rest2 : List Nat) :
    parseStringLoop acc (92 :: (d :: rest2)) =
      if d = 34 ∨ d = 92 then
        if isPrint d then parseStringLoop (acc ++ [d]) rest2
        else .error .unrecognized
      else .error .unrecognized := by
  rw [parseStringLoop_cons, if_neg (by omega), if_pos rfl]

theorem parseStringLoop_plain (acc : List Nat) {c : Nat} (rest : List Nat)
    (h34 : c ≠ 34) (h92 : c ≠ 92) :
    parseStringLoop acc (c :: rest) =
      if isPrint c then parseStringLoop (acc ++ [c]) rest
      else .error .unrecognized := by
  rw [parseStringLoop_cons, if_neg h34, if_neg h92]

theorem parseStringLoop_complete :
    ∀ (s acc rest : List Nat), s.all isPrint = true →
      parseStringLoop acc ((s.map escByte).flatten ++ (34 :: rest)) = .ok (acc ++ s, rest) := by
  intro s
  induction s with
  | nil =>
    intro acc rest _
    simp only [List.map_nil, List.flatten_nil, List.nil_append]
    rw [parseStringLoop_quote]
    simp
  | cons c cs ih =>
    intro acc rest hall
    simp only [List.all_cons, Bool.and_eq_true] at hall
    obtain ⟨hc, hall⟩ := hall
    simp only [List.map_cons, List.flatten_cons, List.append_assoc]
    by_cases hesc : c = 34 ∨ c = 92
    · rw [show escByte c = [92, c] from by unfold escByte; rw [if_pos hesc]]
      rw [show ([92, c] : List Nat) ++ ((cs.map escByte).flatten ++ (34 :: rest)) =
        92 :: (c :: ((cs.map escByte).flatten ++ (34 :: rest))) from rfl]
      rw [parseStringLoop_esc, if_pos hesc, if_pos hc, ih (acc ++ [c]) rest hall]
      simp
    · push_neg at hesc
      obtain ⟨h34, h92⟩ := hesc
      rw [show escByte c = [c] from by unfold escByte; rw [if_neg (by tauto), if_pos hc]]
      rw [show ([c] : List Nat) ++ ((cs.map escByte).flatten ++ (34 :: rest)) =
        c :: ((cs.map escByte).flatten ++ (34 :: rest)) from rfl]
      rw [parseStringLoop_plain _ _ h34 h92, if_pos hc, ih (acc ++ [c]) rest hall]
      simp

theorem parseString_complete {s rest : List Nat} (hall : s.all isPrint = true) :
    parseString (stringEncode s ++ rest) = .ok (.string s, rest) := by
  unfold stringEncode
  rw [show (34 :: (s.map escByte).flatten ++ [34]) ++ rest =
    34 :: ((s.map escByte).flatten ++ (34 :: rest)) by simp]
  rw [parseString, if_pos rfl, parseStringLoop_complete s [] rest hall]
  simp

theorem parseToken_complete {t rest : List Nat}
    (hv : validBare (.token t) = true)
    (hrest : ∀ c cs, rest = c :: cs → isTokenChar c = false) :
    parseToken (t ++ rest) = .ok (.token t, rest) := by
  match t, hv with
  | c :: cs, hv =>
    simp only [validBare, Bool.and_eq_true, Bool.or_eq_true, decide_eq_true_eq] at hv
    obtain ⟨hstart, hall⟩ := hv
    obtain ⟨htw, hdw⟩ := takeWhile_run_append isTokenChar (c :: cs) rest
      (by simpa using hall) (fun d ds h => hrest d ds h)
    rw [List.cons_append] at htw hdw
    rw [List.cons_append, parseToken, if_pos hstart, htw, hdw]

theorem isLower_ne32 {c : Nat} (h : c = 42 ∨ isLower c = true) : c ≠ 32 := by
  rcases h with rfl | h
  · omega
  · simp only [isLower, Bool.and_eq_true, decide_eq_true_eq] at h
    omega

theorem parseKey_complete {k rest : List Nat}
    (hv : validKey k = true)
    (hrest : ∀ c cs, rest = c :: cs → isKeyChar c = false) :
    parseKey (k ++ rest) = .ok (k, rest) := by
  match k, hv with
  | c :: cs, hv =>
    simp only [validKey, Bool.and_eq_true, Bool.or_eq_true, decide_eq_true_eq] at hv
    obtain ⟨hstart, hall⟩ := hv
    obtain ⟨htw, hdw⟩ := takeWhile_run_append isKeyChar (c :: cs) rest
      (by simpa using hall) (fun d ds h => hrest d ds h)
    rw [List.cons_append] at htw hdw
    rw [List.cons_append, parseKey, skipSpaces_cons_ne _ (isLower_ne32 hstart)]
    simp only [if_pos hstart, htw, hdw]

theorem parseByteSeqLoop_complete :
    ∀ (payload acc rest : List Nat), payload.all isBase64Char = true →
      parseByteSeqLoop acc (payload ++ (58 :: rest)) = .ok (acc ++ payload, rest) := by
  intro payload
  induction payload with
  | nil =>
    intro acc rest _
    simp only [List.nil_append, parseByteSeqLoop, if_pos rfl]
    simp
  | cons c cs ih =>
    intro acc rest hall
    simp only [List.all_cons, Bool.and_eq_true] at hall
    obtain ⟨hc, hall⟩ := hall
    have hc58 : c ≠ 58 := by
      rintro rfl
      exact absurd hc (by decide)
    rw [List.cons_append]
    simp only [parseByteSeqLoop]
    rw [if_neg hc58, if_pos hc, ih (acc ++ [c]) rest hall]
    simp

theorem parseByteSeq_complete {payload rest : List Nat}
    (hall : payload.all isBase64Char = true) :
    parseByteSeq (58 :: (payload ++ (58 :: rest))) =
      .ok (.byteSeq (base64Decode payload), rest) := by
  rw [parseByteSeq, if_pos rfl, parseByteSeqLoop_complete payload [] rest hall]
  simp

theorem parseBool_complete (b : Bool) (rest : List Nat) :
    parseBool (boolEncode b ++ rest) = .ok (.bool b, rest) := by
  cases b <;> rfl

/-! ## Base-64 round trip -/

theorem b64Index_b64Char : ∀ n : Nat, n < 64 → b64Index (b64Char n) = some n := by decide

theorem b64Char_isBase64 : ∀ n : Nat, n < 64 → isBase64Char (b64Char n) = true := by decide

theorem base64Encode_all :
    ∀ (bs : List Nat), bs.all (fun x => x < 256) = true →
      (base64Encode bs).all isBase64Char = true := by
  intro bs
  induction bs using base64Encode.induct with
  | case1 => intro; rfl
  | case2 b1 =>
    intro hall
    simp only [List.all_cons, List.all_nil, Bool.and_true, decide_eq_true_eq] at hall
    simp only [base64Encode, List.all_cons, Bool.and_eq_true]
    exact ⟨b64Char_isBase64 _ (by omega), b64Char_isBase64 _ (by omega), by decide, by decide, rfl⟩
  | case3 b1 b2 =>
    intro hall
    simp only [List.all_cons, List.all_nil, Bool.and_true, Bool.and_eq_true,
      decide_eq_true_eq] at hall
    obtain ⟨h1, h2⟩ := hall
    simp only [base64Encode, List.all_cons, Bool.and_eq_true]
    exact ⟨b64Char_isBase64 _ (by omega), b64Char_isBase64 _ (by omega),
      b64Char_isBase64 _ (by omega), by decide, rfl⟩
  | case4 b1 b2 b3 rest ih =>
    intro hall
    simp only [List.all_cons, Bool.and_eq_true, decide_eq_true_eq] at hall
    obtain ⟨h1, h2, h3, hrest⟩ := hall
    simp only [base64Encode, List.all_cons, Bool.and_eq_true]
    exact ⟨b64Char_isBase64 _ (by omega), b64Char_isBase64 _ (by omega),
      b64Char_isBase64 _ (by omega), b64Char_isBase64 _ (by omega),
      ih (by simpa using hrest)⟩

theorem base64_decode_encode :
    ∀ (bs : List Nat), bs.all (fun x => x < 256) = true →
      base64Decode (base64Encode bs) = bs := by
  intro bs
  induction bs using base64Encode.induct with
  | case1 => intro; rfl
  | case2 b1 =>
    intro hall
    simp only [List.all_cons, List.all_nil, Bool.and_true, decide_eq_true_eq] at hall
    have e1 := b64Index_b64Char (b1 / 4) (by omega)
    have e2 := b64Index_b64Char (b1 % 4 * 16) (by omega)
    have ev : b1 / 4 * 4 + b1 % 4 * 16 / 16 = b1 := by omega
    simp [base64Encode, base64Decode, e1, e2, ev, show b64Index 61 = none from rfl]
    omega
  | case3 b1 b2 =>
    intro hall
    simp only [List.all_cons, List.all_nil, Bool.and_true, Bool.and_eq_true,
      decide_eq_true_eq] at hall
    obtain ⟨h1, h2⟩ := hall
    have e1 := b64Index_b64Char (b1 / 4) (by omega)
    have e2 := b64Index_b64Char (b1 % 4 * 16 + b2 / 16) (by omega)
    have e3 := b64Index_b64Char (b2 % 16 * 4) (by omega)
    have ev1 : b1 / 4 * 4 + (b1 % 4 * 16 + b2 / 16) / 16 = b1 := by omega
    have ev2 : (b1 % 4 * 16 + b2 / 16) % 16 * 16 + b2 % 16 * 4 / 4 = b2 := by omega
    simp [base64Encode, base64Decode, e1, e2, e3, ev1, ev2,
      show b64Index 61 = none from rfl]
    omega
  | case4 b1 b2 b3 rest ih =>
    intro hall
    simp only [List.all_cons, Bool.and_eq_true, decide_eq_true_eq] at hall
    obtain ⟨h1, h2, h3, hrest⟩ := hall
    have e1 := b64Index_b64Char (b1 / 4) (by omega)
    have e2 := b64Index_b64Char (b1 % 4 * 16 + b2 / 16) (by omega)
    have e3 := b64Index_b64Char (b2 % 16 * 4 + b3 / 64) (by omega)
    have e4 := b64Index_b64Char (b3 % 64) (by omega)
    have ev1 : b1 / 4 * 4 + (b1 % 4 * 16 + b2 / 16) / 16 = b1 := by omega
    have ev2 : (b1 % 4 * 16 + b2 / 16) % 16 * 16 + (b2 % 16 * 4 + b3 / 64) / 4 = b2 := by omega
    have ev3 : (b2 % 16 * 4 + b3 / 64) % 4 * 64 + b3 % 64 = b3 := by omega
    simp [base64Encode, base64Decode, e1, e2, e3, e4, ev1, ev2, ev3,
      ih (by simpa using hrest)]

/-! ## Bare-item dispatch completeness -/

theorem integerEncode_head (n : Int) :
    ∃ c cs, integerEncode n = c :: cs ∧ (c = 45 ∨ isDigit c = true) := by
  unfold integerEncode
  by_cases hn : n < 0
  · rw [if_pos hn]
    exact ⟨45, natDigits n.natAbs, rfl, Or.inl rfl⟩
  · rw [if_neg hn]
    obtain ⟨d, ds, hnd, hd⟩ := natDigits_head n.natAbs
    exact ⟨d, ds, by simp [hnd], Or.inr hd⟩

theorem decimalEncode_head (x : Int) :
    ∃ c cs, decimalEncode x = c :: cs ∧ (c = 45 ∨ isDigit c = true) := by
  rw [decimalEncode_eq]
  by_cases hn : x < 0
  · rw [if_pos hn]
    exact ⟨45, _, rfl, Or.inl rfl⟩
  · rw [if_neg hn]
    obtain ⟨d, ds, hnd, hd⟩ := natDigits_head (x.natAbs / 1000)
    exact ⟨d, ds ++ (46 :: fracDigits (x.natAbs % 1000)), by simp [hnd], Or.inr hd⟩

/-- Every encoded valid bare item starts with a character of its own
dispatch class. -/
theorem bareEncode_head {b : BareItem} (hv : validBare b = true) :
    ∃ c cs, BareItem.Encode b = c :: cs ∧ bareStart c = true := by
  cases b with
  | integer n =>
    obtain ⟨c, cs, henc, hc⟩ := integerEncode_head n
    refine ⟨c, cs, henc, ?_⟩
    simp only [bareStart, Bool.or_eq_true, decide_eq_true_eq]
    tauto
  | decimal x =>
    obtain ⟨c, cs, henc, hc⟩ := decimalEncode_head x
    refine ⟨c, cs, henc, ?_⟩
    simp only [bareStart, Bool.or_eq_true, decide_eq_true_eq]
    tauto
  | string s => exact ⟨34, _, rfl, by decide⟩
  | token t =>
    match t, hv with
    | c :: cs, hv =>
      simp only [validBare, Bool.and_eq_true, Bool.or_eq_true, decide_eq_true_eq] at hv
      refine ⟨c, cs, rfl, ?_⟩
      simp only [bareStart, Bool.or_eq_true, decide_eq_true_eq]
      tauto
  | byteSeq bs => exact ⟨58, _, rfl, by decide⟩
  | bool b => cases b <;> exact ⟨63, _, rfl, by decide⟩

theorem parseBareItem_cons {c : Nat} (rest : List Nat) (h : c ≠ 32) :
    parseBareItem (c :: rest) =
      if c = 45 ∨ isDigit c = true then parseNumber (c :: rest)
      else if c = 34 then parseString (c :: rest)
      else if c = 42 ∨ isAlpha c = true then parseToken (c :: rest)
      else if c = 58 then parseByteSeq (c :: rest)
      else if c = 63 then parseBool (c :: rest)
      else .error .unrecognized := by
  rw [parseBareItem, skipSpaces_cons_ne _ h]

theorem parseBareItem_complete {b : BareItem} {rest : List Nat}
    (hv : validBare b = true)
    (hrest : ∀ c cs, rest = c :: cs → isTokenChar c = false) :
    parseBareItem (BareItem.Encode b ++ rest) = .ok (b, rest) := by
  have hnum : ∀ c cs, rest = c :: cs → isDigit c = false ∧ c ≠ 46 :=
    fun c cs h => ⟨(tokenChar_ranges (hrest c cs h)).1, (tokenChar_ranges (hrest c cs h)).2.1⟩
  obtain ⟨c, cs, henc, hstart⟩ := bareEncode_head hv
  have hc32 : c ≠ 32 := (bareStart_ranges hstart).1
  rw [henc, List.cons_append, parseBareItem_cons _ hc32]
  simp only [bareStart, Bool.or_eq_true, decide_eq_true_eq] at hstart
  cases b with
  | integer n =>
    have hvn : digitCount n.natAbs ≤ 15 := by
      simpa [validBare] using hv
    obtain ⟨c', cs', henc', hc'⟩ := integerEncode_head n
    have hcc : c = c' ∧ cs = cs' := by
      have : BareItem.Encode (.integer n) = integerEncode n := rfl
      rw [this, henc'] at henc
      exact ⟨(List.cons.injEq .. ▸ henc).1.symm, (List.cons.injEq .. ▸ henc).2.symm⟩
    obtain ⟨rfl, rfl⟩ := hcc
    rw [if_pos (by tauto), ← List.cons_append, ← henc']
    exact parseNumber_complete_int hvn hnum
  | decimal x =>
    have hvx : digitCount (x.natAbs / 1000) + fracLen (x.natAbs % 1000) ≤ 15 := by
      simpa [validBare] using hv
    obtain ⟨c', cs', henc', hc'⟩ := decimalEncode_head x
    have hcc : c = c' ∧ cs = cs' := by
      have : BareItem.Encode (.decimal x) = decimalEncode x := rfl
      rw [this, henc'] at henc
      exact ⟨(List.cons.injEq .. ▸ henc).1.symm, (List.cons.injEq .. ▸ henc).2.symm⟩
    obtain ⟨rfl, rfl⟩ := hcc
    rw [if_pos (by tauto), ← List.cons_append, ← henc']
    exact parseNumber_complete_dec hvx hnum
  | string s =>
    have h34 : c = 34 := by
      have : BareItem.Encode (.string s) = 34 :: ((s.map escByte).flatten ++ [34]) := rfl
      rw [this] at henc
      exact ((List.cons.injEq .. ▸ henc).1).symm
    subst h34
    rw [if_neg (by decide), if_pos rfl, ← List.cons_append, ← henc]
    exact parseString_complete (by simpa [validBare] using hv)
  | token t =>
    have henct : BareItem.Encode (.token t) = t := rfl
    have hta : isAlpha c = true ∨ c = 42 := by
      match t, hv, henc with
      | c0 :: cs0, hv, henc =>
        simp only [validBare, Bool.and_eq_true, Bool.or_eq_true, decide_eq_true_eq] at hv
        rw [henct] at henc
        have : c0 = c := (List.cons.injEq .. ▸ henc).1
        subst this
        tauto
    have hcd : isDigit c = false ∧ c ≠ 45 ∧ c ≠ 34 := by
      rcases hta with h | rfl
      · simp only [isAlpha, isLower, isUpper, Bool.or_eq_true, Bool.and_eq_true,
          decide_eq_true_eq] at h
        refine ⟨by simp [isDigit]; omega, by omega, by omega⟩
      · exact ⟨by decide, by omega, by omega⟩
    rw [if_neg (by simp [hcd.1, hcd.2.1]), if_neg hcd.2.2,
      if_pos (by tauto), ← List.cons_append, ← henct, henc, List.cons_append]
    rw [← List.cons_append, ← henc, henct]
    exact parseToken_complete hv hrest
  | byteSeq bs =>
    have h58 : c = 58 := by
      have : BareItem.Encode (.byteSeq bs) = 58 :: (base64Encode bs ++ [58]) := rfl
      rw [this] at henc
      exact ((List.cons.injEq .. ▸ henc).1).symm
    subst h58
    rw [if_neg (by decide), if_neg (by decide), if_neg (by decide), if_pos rfl,
      ← List.cons_append, ← henc]
    have hall : bs.all (fun x => x < 256) = true := by simpa [validBare] using hv
    rw [show (BareItem.Encode (.byteSeq bs) ++ rest) =
      58 :: (base64Encode bs ++ (58 :: rest)) from by
        simp [BareItem.Encode, byteSeqEncode]]
    rw [parseByteSeq_complete (base64Encode_all bs hall), base64_decode_encode bs hall]
  | bool bv =>
    have h63 : c = 63 := by
      cases bv <;>
        exact ((List.cons.injEq .. ▸ henc).1).symm
    subst h63
    rw [if_neg (by decide), if_neg (by decide), if_neg (by decide), if_neg (by decide),
      if_pos rfl, ← List.cons_append, ← henc]
    exact parseBool_complete bv rest

/-! ## Parameter list and item completeness -/

/-- A following byte string that cannot be confused with more of the
current construct: its head (if any) is no token character and no equals
sign, and after space skipping no semicolon follows.  Every separator
context of the encoders (comma-space, closing parenthesis, space between
inner-list items, end of input) satisfies this. -/
def restOk (rest : List Nat) : Prop :=
  (∀ c cs, rest = c :: cs → isTokenChar c = false ∧ c ≠ 61) ∧
    (skipSpaces rest).head? ≠ some 59

theorem restOk_nil : restOk [] := by
  constructor
  · intro c cs h
    exact List.noConfusion h
  · simp [skipSpaces]

theorem paramListAdd_fresh {acc : ParamList} {k : List Nat} {v : BareItem}
    (h : ∀ q ∈ acc, q.key ≠ k) : ParamList.Add acc k v = acc ++ [⟨k, v⟩] := by
  have hc : ¬ (acc.any (fun p => p.key = k) = true) := by
    intro hany
    rw [List.any_eq_true] at hany
    obtain ⟨q, hq, hqk⟩ := hany
    exact h q hq (by simpa using hqk)
  unfold ParamList.Add
  rw [if_neg hc]

theorem dictAdd_fresh {acc : Dict} {k : List Nat} {v : Member}
    (h : ∀ q ∈ acc, q.key ≠ k) : Dict.Add acc k v = acc ++ [⟨k, v⟩] := by
  have hc : ¬ (acc.any (fun p => p.key = k) = true) := by
    intro hany
    rw [List.any_eq_true] at hany
    obtain ⟨q, hq, hqk⟩ := hany
    exact h q hq (by simpa using hqk)
  unfold Dict.Add
  rw [if_neg hc]

theorem paramEncode_true {p : Param} (h : p.value = .bool true) :
    Param.Encode p = p.key := by
  unfold Param.Encode
  rw [h]

theorem Param.Encode_default {p : Param} (h : p.value ≠ .bool true) :
    Param.Encode p = p.key ++ (61 :: BareItem.Encode p.value) := by
  unfold Param.Encode
  split
  · next heq => exact absurd heq h
  · rfl

theorem parseParamsLoopF_stop (f : Nat) (acc : ParamList) {s : List Nat}
    (h : (skipSpaces s).head? ≠ some 59) :
    parseParamsLoopF (f + 1) acc s = .ok (acc, skipSpaces s) := by
  cases hss : skipSpaces s with
  | nil => simp only [parseParamsLoopF, hss]
  | cons c r =>
    rw [hss] at h
    have hc : c ≠ 59 := by simpa using h
    simp only [parseParamsLoopF, hss]
    rw [if_neg hc]

theorem parseParamsLoopF_cons59 (f : Nat) (acc : ParamList) (tail : List Nat) :
    parseParamsLoopF (f + 1) acc (59 :: tail) =
      match parseKey tail with
      | .error e => .error e
      | .ok (key, s2) =>
        if s2.head? = some 61 then
          match parseBareItem s2.tail with
          | .error e => .error e
          | .ok (value, s4) => parseParamsLoopF f (ParamList.Add acc key value) s4
        else parseParamsLoopF f (ParamList.Add acc key (.bool true)) s2 := by
  simp only [parseParamsLoopF, skipSpaces_cons_ne tail (show (59:Nat) ≠ 32 by omega)]
  rw [if_pos trivial]

theorem parseParamsLoopF_complete :
    ∀ (ps acc : ParamList) (rest : List Nat) (f : Nat),
      (ParamList.Encode ps ++ rest).length < f →
      ps.all validParam = true →
      noDupKeys (ps.map Param.key) = true →
      (∀ p ∈ ps, ∀ q ∈ acc, q.key ≠ p.key) →
      restOk rest →
      parseParamsLoopF f acc (ParamList.Encode ps ++ rest) =
        .ok (acc ++ ps, skipSpaces rest) := by
  intro ps
  induction ps with
  | nil =>
    intro acc rest f hf _ _ _ hrest
    obtain ⟨g, rfl⟩ : ∃ g, f = g + 1 := ⟨f - 1, by omega⟩
    simp only [ParamList.Encode, List.nil_append]
    rw [parseParamsLoopF_stop g acc hrest.2]
    simp
  | cons p ps ih =>
    intro acc rest f hf hall hdup hfresh hrest
    obtain ⟨g, rfl⟩ : ∃ g, f = g + 1 := ⟨f - 1, by omega⟩
    have henc : ParamList.Encode (p :: ps) ++ rest =
        59 :: (Param.Encode p ++ (ParamList.Encode ps ++ rest)) := by
      simp [ParamList.Encode]
    simp only [List.all_cons, Bool.and_eq_true] at hall
    obtain ⟨hp, hall⟩ := hall
    simp only [validParam, Bool.and_eq_true] at hp
    obtain ⟨hpk, hpv⟩ := hp
    simp only [noDupKeys, List.map_cons, Bool.and_eq_true, Bool.not_eq_true'] at hdup
    obtain ⟨hnotin, hdup⟩ := hdup
    have hnotin' : p.key ∉ ps.map Param.key := by simpa using hnotin
    have hXtok : ∀ c cs, (ParamList.Encode ps ++ rest) = c :: cs →
        isTokenChar c = false := by
      intro c cs h
      match ps, h with
      | [], h => exact (hrest.1 c cs (by simpa using h)).1
      | q :: qs, h =>
        have hc : c = 59 := by
          have : ParamList.Encode (q :: qs) = 59 :: (Param.Encode q ++ ParamList.Encode qs) := by
            simp [ParamList.Encode]
          rw [this] at h
          exact ((List.cons.injEq .. ▸ h).1).symm
        subst hc
        decide
    have hXkey : ∀ c cs, (ParamList.Encode ps ++ rest) = c :: cs →
        isKeyChar c = false :=
      fun c cs h => (tokenChar_ranges (hXtok c cs h)).2.2
    have hX61 : (ParamList.Encode ps ++ rest).head? ≠ some 61 := by
      match hps2 : ps with
      | [] =>
        match hr : rest with
        | [] => simp [ParamList.Encode]
        | c :: cs =>
          simp only [ParamList.Encode, List.nil_append, List.head?_cons]
          intro hsome
          exact (hrest.1 c cs rfl).2 (Option.some.inj hsome)
      | q :: qs =>
        rw [show ParamList.Encode (q :: qs) ++ rest =
          59 :: (Param.Encode q ++ (ParamList.Encode qs ++ rest)) from by
            simp [ParamList.Encode]]
        simp
    have hfuel : (ParamList.Encode ps ++ rest).length < g := by
      rw [henc] at hf
      simp only [List.length_cons, List.length_append] at hf ⊢
      omega
    have hfreshp : ∀ q ∈ acc, q.key ≠ p.key :=
      fun q hq => hfresh p (List.mem_cons_self p ps) q hq
    have hfresh' : ∀ p' ∈ ps, ∀ q ∈ acc ++ [p], q.key ≠ p'.key := by
      intro p' hp' q hq
      rcases List.mem_append.mp hq with hq | hq
      · exact hfresh p' (List.mem_cons_of_mem p hp') q hq
      · have hqp : q = p := by simpa using hq
        subst hqp
        intro hkey
        exact hnotin' (hkey ▸ List.mem_map_of_mem Param.key hp')
    by_cases hbt : p.value = .bool true
    · rw [henc, parseParamsLoopF_cons59, paramEncode_true hbt,
        parseKey_complete hpk hXkey]
      simp only [if_neg hX61]
      rw [paramListAdd_fresh hfreshp]
      have hpeta : (⟨p.key, .bool true⟩ : Param) = p := by
        cases p
        simp_all
      rw [hpeta, ih (acc ++ [p]) rest g hfuel hall hdup hfresh' hrest]
      simp
    · rw [henc, parseParamsLoopF_cons59, Param.Encode_default hbt]
      have hshape : (p.key ++ (61 :: BareItem.Encode p.value)) ++
          (ParamList.Encode ps ++ rest) =
          p.key ++ (61 :: (BareItem.Encode p.value ++ (ParamList.Encode ps ++ rest))) := by
        simp
      rw [hshape, parseKey_complete hpk (by
        intro c cs h
        have : c = 61 := ((List.cons.injEq .. ▸ h).1).symm
        subst this
        decide)]
      simp only [List.head?_cons]
      rw [if_pos trivial]
      simp only [List.tail_cons]
      rw [parseBareItem_complete hpv hXtok]
      simp only [paramListAdd_fresh hfreshp]
      have hpeta : (⟨p.key, p.value⟩ : Param) = p := by cases p; rfl
      rw [hpeta, ih (acc ++ [p]) rest g hfuel hall hdup hfresh' hrest]
      simp

theorem parseParams_complete {ps : ParamList} {rest : List Nat}
    (hv : validParamList ps = true) (hrest : restOk rest) :
    parseParams (ParamList.Encode ps ++ rest) = .ok (ps, skipSpaces rest) := by
  unfold parseParams
  simp only [validParamList, Bool.and_eq_true] at hv
  have := parseParamsLoopF_complete ps [] rest ((ParamList.Encode ps ++ rest).length + 1)
    (by omega) hv.1 hv.2 (by intro p _ q hq; exact absurd hq (List.not_mem_nil q)) hrest
  simpa using this

theorem parseItem_complete {it : Item} {rest : List Nat}
    (hv : validItem it = true) (hrest : restOk rest) :
    parseItem (Item.Encode it ++ rest) = .ok (it, skipSpaces rest) := by
  obtain ⟨b, ps⟩ := it
  simp only [validItem, Bool.and_eq_true] at hv
  obtain ⟨hb, hps⟩ := hv
  have hXtok : ∀ c cs, (ParamList.Encode ps ++ rest) = c :: cs →
      isTokenChar c = false := by
    intro c cs h
    match ps, h with
    | [], h => exact (hrest.1 c cs (by simpa using h)).1
    | q :: qs, h =>
      have hc : c = 59 := by
        have : ParamList.Encode (q :: qs) = 59 :: (Param.Encode q ++ ParamList.Encode qs) := by
          simp [ParamList.Encode]
        rw [this] at h
        exact ((List.cons.injEq .. ▸ h).1).symm
      subst hc
      decide
  have henc : Item.Encode ⟨b, ps⟩ ++ rest =
      BareItem.Encode b ++ (ParamList.Encode ps ++ rest) := by
    simp [Item.Encode]
  rw [henc, parseItem, parseBareItem_complete hb hXtok]
  simp only [parseParams_complete hps hrest]

/-- An encoded valid item starts with a bare-item start character. -/
theorem itemEncode_head {i : Item} (hv : validItem i = true) :
    ∃ c cs, Item.Encode i = c :: cs ∧ bareStart c = true := by
  simp only [validItem, Bool.and_eq_true] at hv
  obtain ⟨c, cs, henc, hc⟩ := bareEncode_head hv.1
  exact ⟨c, cs ++ ParamList.Encode i.params, by simp [Item.Encode, henc], hc⟩

theorem innerItemsJoin_cons (j : Item) (r : List Item) :
    ∃ t, innerItemsJoin (j :: r) = Item.Encode j ++ t := by
  cases r with
  | nil => exact ⟨[], by simp [innerItemsJoin]⟩
  | cons a as => exact ⟨32 :: innerItemsJoin (a :: as), rfl⟩

/-- A suffix led by a non-space, non-key, non-value delimiter satisfies
the boundary condition. -/
theorem restOk_cons (c : Nat) (X : List Nat) (h1 : isTokenChar c = false)
    (h2 : c ≠ 61) (h3 : c ≠ 32) (h4 : c ≠ 59) : restOk (c :: X) := by
  refine ⟨?_, ?_⟩
  · intro d ds h
    have hd : d = c := ((List.cons.injEq .. ▸ h).1).symm
    subst hd
    exact ⟨h1, h2⟩
  · rw [skipSpaces_cons_ne _ h3]
    intro hcon
    exact h4 (Option.some.inj hcon)

/-- A space followed by another encoded item satisfies the boundary
condition. -/
theorem restOk_space_item {j : Item} (hv : validItem j = true) (t : List Nat) :
    restOk (32 :: (Item.Encode j ++ t)) := by
  obtain ⟨c, cs, henc, hc⟩ := itemEncode_head hv
  obtain ⟨h32, -, -, -, h59, -⟩ := bareStart_ranges hc
  refine ⟨?_, ?_⟩
  · intro d ds h
    have hd : d = 32 := ((List.cons.injEq .. ▸ h).1).symm
    subst hd
    exact ⟨by decide, by decide⟩
  · rw [skipSpaces_cons_space, henc, List.cons_append, skipSpaces_cons_ne _ h32]
    intro hcon
    exact h59 (Option.some.inj hcon)

/-- Completeness of the inner-list item loop on an encoded item sequence
followed by the closing parenthesis: it stops exactly there with the
items appended in order. -/
theorem parseInnerListLoopF_complete :
    ∀ (its acc : List Item) (X : List Nat) (f : Nat),
      (innerItemsJoin its ++ 41 :: X).length < f →
      its.all validItem = true →
      parseInnerListLoopF f acc (innerItemsJoin its ++ 41 :: X) =
        .ok (acc ++ its, X) := by
  intro its
  induction its with
  | nil =>
    intro acc X f hf _
    obtain ⟨g, rfl⟩ : ∃ g, f = g + 1 := ⟨f - 1, by omega⟩
    simp only [innerItemsJoin, List.nil_append, parseInnerListLoopF,
      skipSpaces_cons_ne _ (show (41:Nat) ≠ 32 by omega)]
    rw [if_pos trivial]
    simp
  | cons i its ih =>
    intro acc X f hf hall
    obtain ⟨g, rfl⟩ : ∃ g, f = g + 1 := ⟨f - 1, by omega⟩
    simp only [List.all_cons, Bool.and_eq_true] at hall
    obtain ⟨hi, hall⟩ := hall
    obtain ⟨c, cs, hienc, hc⟩ := itemEncode_head hi
    obtain ⟨hc32, hc40, hc41, hc44, hc59, hc61⟩ := bareStart_ranges hc
    cases its with
    | nil =>
      have hshape : innerItemsJoin [i] ++ 41 :: X = c :: (cs ++ (41 :: X)) := by
        simp [innerItemsJoin, hienc]
      have hpi : parseItem (c :: (cs ++ (41 :: X))) = .ok (i, 41 :: X) := by
        have h0 := parseItem_complete hi
          (restOk_cons 41 X (by decide) (by decide) (by decide) (by decide))
        rw [hienc, List.cons_append, skipSpaces_cons_ne _ (by omega)] at h0
        exact h0
      rw [hshape]
      simp only [parseInnerListLoopF, skipSpaces_cons_ne _ hc32]
      rw [if_neg hc41]
      simp only [hpi]
      have hfl : (innerItemsJoin ([] : List Item) ++ 41 :: X).length < g := by
        rw [hshape] at hf
        simp only [innerItemsJoin, List.nil_append, List.length_cons,
          List.length_append] at hf ⊢
        omega
      have := ih (acc ++ [i]) X g hfl (by simp)
      simpa using this
    | cons j r =>
      obtain ⟨t, hjoin⟩ := innerItemsJoin_cons j r
      have hshape : innerItemsJoin (i :: j :: r) ++ 41 :: X =
          c :: (cs ++ (32 :: (innerItemsJoin (j :: r) ++ 41 :: X))) := by
        simp [innerItemsJoin, hienc]
      have hjv : validItem j = true := by
        simp only [List.all_cons, Bool.and_eq_true] at hall
        exact hall.1
      obtain ⟨d, ds, hjenc, hd⟩ := itemEncode_head hjv
      have hd32 : d ≠ 32 := (bareStart_ranges hd).1
      have hros : restOk (32 :: (innerItemsJoin (j :: r) ++ 41 :: X)) := by
        rw [hjoin, List.append_assoc]
        exact restOk_space_item hjv (t ++ 41 :: X)
      have hskip : skipSpaces (32 :: (innerItemsJoin (j :: r) ++ 41 :: X)) =
          innerItemsJoin (j :: r) ++ 41 :: X := by
        rw [skipSpaces_cons_space, hjoin, hjenc]
        simp only [List.cons_append, List.append_assoc]
        rw [skipSpaces_cons_ne _ hd32]
      have hpi : parseItem (c :: (cs ++ (32 :: (innerItemsJoin (j :: r) ++ 41 :: X)))) =
          .ok (i, innerItemsJoin (j :: r) ++ 41 :: X) := by
        have h0 := parseItem_complete hi hros
        rw [hienc, List.cons_append, hskip] at h0
        exact h0
      rw [hshape]
      simp only [parseInnerListLoopF, skipSpaces_cons_ne _ hc32]
      rw [if_neg hc41]
      simp only [hpi]
      have hfl : (innerItemsJoin (j :: r) ++ 41 :: X).length < g := by
        rw [hshape] at hf
        simp only [List.length_cons, List.length_append] at hf ⊢
        omega
      have := ih (acc ++ [i]) X g hfl hall
      simpa using this

/-- Completeness of parseInnerList on an encoded inner list. -/
theorem parseInnerList_complete {il : InnerList} {rest : List Nat}
    (hv : validInnerList il = true) (hrest : restOk rest) :
    parseInnerList (InnerList.Encode il ++ rest) = .ok (il, skipSpaces rest) := by
  obtain ⟨its, ps⟩ := il
  simp only [validInnerList, Bool.and_eq_true] at hv
  obtain ⟨hits, hps⟩ := hv
  have hshape : InnerList.Encode ⟨its, ps⟩ ++ rest =
      40 :: (innerItemsJoin its ++ 41 :: (ParamList.Encode ps ++ rest)) := by
    simp [InnerList.Encode]
  rw [hshape]
  simp only [parseInnerList]
  rw [if_pos trivial]
  rw [parseInnerListLoopF_complete its []
    (ParamList.Encode ps ++ rest) _ (Nat.lt_succ_self _) hits]
  simp only [List.nil_append, parseParams_complete hps hrest]

/-- Completeness of parseMember on an encoded member. -/
theorem parseMember_complete {m : Member} {rest : List Nat}
    (hv : validMember m = true) (hrest : restOk rest) :
    parseMember (Member.Encode m ++ rest) = .ok (m, skipSpaces rest) := by
  cases m with
  | item i =>
    have hvi : validItem i = true := hv
    obtain ⟨c, cs, hienc, hc⟩ := itemEncode_head hvi
    obtain ⟨hc32, hc40, -, -, -, -⟩ := bareStart_ranges hc
    have hshape : Member.Encode (.item i) ++ rest = c :: (cs ++ rest) := by
      simp [Member.Encode, hienc]
    have hpi : parseItem (c :: (cs ++ rest)) = .ok (i, skipSpaces rest) := by
      have h0 := parseItem_complete hvi hrest
      rw [hienc, List.cons_append] at h0
      exact h0
    rw [hshape]
    simp only [parseMember, skipSpaces_cons_ne _ hc32]
    rw [if_neg hc40]
    simp only [hpi]
  | innerList il =>
    have hvl : validInnerList il = true := hv
    have hpil := parseInnerList_complete hvl hrest
    obtain ⟨its, ps⟩ := il
    have hshape : Member.Encode (.innerList ⟨its, ps⟩) ++ rest =
        40 :: (innerItemsJoin its ++ 41 :: (ParamList.Encode ps ++ rest)) := by
      simp [Member.Encode, InnerList.Encode]
    rw [hshape]
    simp only [parseMember, skipSpaces_cons_ne _ (show (40:Nat) ≠ 32 by omega)]
    rw [if_pos trivial]
    rw [show (40 : Nat) :: (innerItemsJoin its ++ 41 :: (ParamList.Encode ps ++ rest)) =
      InnerList.Encode ⟨its, ps⟩ ++ rest from by simp [InnerList.Encode]]
    simp only [hpil]

theorem pairEncode_true {pr : Pair} {ps : ParamList}
    (h : pr.value = .item ⟨.bool true, ps⟩) :
    Pair.Encode pr = pr.key ++ ParamList.Encode ps := by
  simp only [Pair.Encode, h]

theorem Pair.Encode_other {pr : Pair} (h : ∀ ps, pr.value ≠ .item ⟨.bool true, ps⟩) :
    Pair.Encode pr = pr.key ++ (61 :: Member.Encode pr.value) := by
  obtain ⟨k, v⟩ := pr
  match v with
  | .innerList il => rfl
  | .item ⟨.integer n, ps⟩ => rfl
  | .item ⟨.decimal d, ps⟩ => rfl
  | .item ⟨.string s, ps⟩ => rfl
  | .item ⟨.token t, ps⟩ => rfl
  | .item ⟨.byteSeq b, ps⟩ => rfl
  | .item ⟨.bool false, ps⟩ => rfl
  | .item ⟨.bool true, ps⟩ => exact absurd rfl (h ps)

/-- Completeness of parsePair on an encoded pair. -/
theorem parsePair_complete {pr : Pair} {rest : List Nat}
    (hv : validPair pr = true) (hrest : restOk rest) :
    parsePair (Pair.Encode pr ++ rest) = .ok (pr, skipSpaces rest) := by
  simp only [validPair, Bool.and_eq_true] at hv
  obtain ⟨hk, hm⟩ := hv
  by_cases htrue : ∃ ps, pr.value = .item ⟨.bool true, ps⟩
  · obtain ⟨ps, hval⟩ := htrue
    have hps : validParamList ps = true := by
      rw [hval] at hm
      simpa [validMember, validItem, validBare] using hm
    have hXkey : ∀ c cs, (ParamList.Encode ps ++ rest) = c :: cs →
        isKeyChar c = false := by
      intro c cs h
      match ps, h with
      | [], h =>
        exact (tokenChar_ranges (hrest.1 c cs (by simpa using h)).1).2.2
      | q :: qs, h =>
        have hc : c = 59 := by
          have he : ParamList.Encode (q :: qs) =
              59 :: (Param.Encode q ++ ParamList.Encode qs) := by
            simp [ParamList.Encode]
          rw [he] at h
          exact ((List.cons.injEq .. ▸ h).1).symm
        subst hc
        decide
    have hX61 : (ParamList.Encode ps ++ rest).head? ≠ some 61 := by
      match ps with
      | [] =>
        match rest with
        | [] => simp [ParamList.Encode]
        | c :: cs =>
          simp only [ParamList.Encode, List.nil_append, List.head?_cons]
          intro hsome
          exact (hrest.1 c cs rfl).2 (Option.some.inj hsome)
      | q :: qs =>
        rw [show ParamList.Encode (q :: qs) ++ rest =
          59 :: (Param.Encode q ++ (ParamList.Encode qs ++ rest)) from by
            simp [ParamList.Encode]]
        simp
    rw [pairEncode_true hval, List.append_assoc]
    simp only [parsePair, parseKey_complete hk hXkey]
    simp only [if_neg hX61, parseParams_complete hps hrest]
    rw [show (⟨pr.key, .item ⟨.bool true, ps⟩⟩ : Pair) = pr from by
      cases pr; simp_all]
  · push_neg at htrue
    rw [Pair.Encode_other htrue]
    have hshape : (pr.key ++ (61 :: Member.Encode pr.value)) ++ rest =
        pr.key ++ (61 :: (Member.Encode pr.value ++ rest)) := by
      simp
    have hX : ∀ c cs, (61 :: (Member.Encode pr.value ++ rest)) = c :: cs →
        isKeyChar c = false := by
      intro c cs h
      have hc : c = 61 := ((List.cons.injEq .. ▸ h).1).symm
      subst hc
      decide
    rw [hshape]
    simp only [parsePair, parseKey_complete hk hX]
    simp only [List.head?_cons, List.tail_cons]
    rw [if_pos trivial]
    simp only [parseMember_complete hm hrest]

theorem parseKey_space (s : List Nat) : parseKey (32 :: s) = parseKey s := by
  simp only [parseKey, skipSpaces_cons_space]

theorem parsePair_space (s : List Nat) : parsePair (32 :: s) = parsePair s := by
  simp only [parsePair, parseKey_space]

theorem parseMember_space (s : List Nat) : parseMember (32 :: s) = parseMember s := by
  simp only [parseMember, skipSpaces_cons_space]

theorem parseDictLoopF_space (f : Nat) (acc : Dict) (s : List Nat) :
    parseDictLoopF (f + 1) acc (32 :: s) = parseDictLoopF (f + 1) acc s := by
  simp only [parseDictLoopF, parsePair_space]

theorem parseListLoopF_space (f : Nat) (acc : SList) (s : List Nat) :
    parseListLoopF (f + 1) acc (32 :: s) = parseListLoopF (f + 1) acc s := by
  simp only [parseListLoopF, parseMember_space]

/-- An encoded pair starts with its key. -/
theorem pairEncode_key (p : Pair) : ∃ t, Pair.Encode p = p.key ++ t := by
  by_cases h : ∃ ps, p.value = .item ⟨.bool true, ps⟩
  · obtain ⟨ps, h⟩ := h
    exact ⟨ParamList.Encode ps, pairEncode_true h⟩
  · push_neg at h
    exact ⟨61 :: Member.Encode p.value, Pair.Encode_other h⟩

/-- An encoded valid pair starts with a key-start character. -/
theorem pairEncode_head {p : Pair} (hv : validPair p = true) :
    ∃ c cs, Pair.Encode p = c :: cs ∧ (c = 42 ∨ isLower c = true) := by
  simp only [validPair, Bool.and_eq_true] at hv
  obtain ⟨t, ht⟩ := pairEncode_key p
  match hk : p.key, hv.1 with
  | c :: cs, hv1 =>
    simp only [validKey, Bool.and_eq_true, Bool.or_eq_true, decide_eq_true_eq] at hv1
    exact ⟨c, cs ++ t, by rw [ht, hk, List.cons_append], hv1.1⟩

/-- An encoded valid member starts with a non-space character. -/
theorem memberEncode_head {m : Member} (hv : validMember m = true) :
    ∃ c cs, Member.Encode m = c :: cs ∧ c ≠ 32 := by
  cases m with
  | item i =>
    obtain ⟨c, cs, henc, hc⟩ := itemEncode_head hv
    exact ⟨c, cs, henc, (bareStart_ranges hc).1⟩
  | innerList il =>
    exact ⟨40, innerItemsJoin il.items ++ 41 :: ParamList.Encode il.params,
      by simp [Member.Encode, InnerList.Encode], by omega⟩

theorem noDupKeys_cons (k : List Nat) (ks : List (List Nat)) :
    noDupKeys (k :: ks) = (!ks.contains k && noDupKeys ks) := rfl

/-- Completeness of the dictionary loop on an encoded nonempty dictionary:
every pair is parsed and upserted in order, ending exactly at the end of
input. -/
theorem parseDictLoopF_complete :
    ∀ (d : Dict), d ≠ [] → ∀ (acc : Dict) (f : Nat),
      (Dict.Encode d).length < f →
      d.all validPair = true →
      noDupKeys (d.map Pair.key) = true →
      (∀ p ∈ d, ∀ q ∈ acc, q.key ≠ p.key) →
      parseDictLoopF f acc (Dict.Encode d) = .ok (acc ++ d) := by
  intro d
  induction d with
  | nil => intro h; exact absurd rfl h
  | cons p ps ih =>
    intro _ acc f hf hall hdup hfresh
    obtain ⟨g, rfl⟩ : ∃ g, f = g + 1 := ⟨f - 1, by omega⟩
    simp only [List.all_cons, Bool.and_eq_true] at hall
    obtain ⟨hp, hall⟩ := hall
    have hfreshp : ∀ q ∈ acc, q.key ≠ p.key :=
      fun q hq => hfresh p (List.mem_cons_self p ps) q hq
    cases ps with
    | nil =>
      have hpe : parsePair (Dict.Encode [p]) = .ok (p, []) := by
        have h0 := parsePair_complete hp restOk_nil
        simpa [Dict.Encode] using h0
      simp only [parseDictLoopF, hpe]
      rw [if_neg (by simp [skipSpaces])]
      rw [dictAdd_fresh hfreshp]
    | cons q qs =>
      have hshape : Dict.Encode (p :: q :: qs) =
          Pair.Encode p ++ (44 :: (32 :: Dict.Encode (q :: qs))) := by
        simp [Dict.Encode]
      have hpe : parsePair (Dict.Encode (p :: q :: qs)) =
          .ok (p, 44 :: (32 :: Dict.Encode (q :: qs))) := by
        have h0 := parsePair_complete hp
          (restOk_cons 44 (32 :: Dict.Encode (q :: qs)) (by decide) (by decide)
            (by decide) (by decide))
        rw [skipSpaces_cons_ne _ (by omega)] at h0
        rw [hshape]
        exact h0
      simp only [parseDictLoopF, hpe]
      rw [skipSpaces_cons_ne _ (show (44:Nat) ≠ 32 by omega)]
      simp only [List.head?_cons, List.tail_cons]
      rw [if_pos trivial]
      have hg : ∃ g2, g = g2 + 1 := by
        rw [hshape] at hf
        simp only [List.length_append, List.length_cons] at hf
        exact ⟨g - 1, by omega⟩
      obtain ⟨g2, rfl⟩ := hg
      rw [parseDictLoopF_space, dictAdd_fresh hfreshp]
      have hdc : (((q :: qs).map Pair.key).contains p.key = false) ∧
          noDupKeys ((q :: qs).map Pair.key) = true := by
        rw [List.map_cons, noDupKeys_cons] at hdup
        simp only [Bool.and_eq_true, Bool.not_eq_true'] at hdup
        exact hdup
      have hfresh2 : ∀ p' ∈ q :: qs, ∀ r ∈ acc ++ [p], r.key ≠ p'.key := by
        intro p' hp' r hr
        rcases List.mem_append.mp hr with hr | hr
        · exact hfresh p' (List.mem_cons_of_mem p hp') r hr
        · have hrp : r = p := by simpa using hr
          rw [hrp]
          intro hkey
          have hmem : p.key ∈ (q :: qs).map Pair.key :=
            hkey ▸ List.mem_map_of_mem Pair.key hp'
          have hnot : p.key ∉ (q :: qs).map Pair.key := by
            simpa using hdc.1
          exact hnot hmem
      have hfuel : (Dict.Encode (q :: qs)).length < g2 + 1 := by
        rw [hshape] at hf
        simp only [List.length_append, List.length_cons] at hf ⊢
        omega
      have := ih (by simp) (acc ++ [p]) (g2 + 1) hfuel hall hdc.2 hfresh2
      simpa using this

/-- Completeness of the list loop on an encoded nonempty list. -/
theorem parseListLoopF_complete :
    ∀ (l : SList), l ≠ [] → ∀ (acc : SList) (f : Nat),
      (SList.Encode l).length < f →
      l.all validMember = true →
      parseListLoopF f acc (SList.Encode l) = .ok (acc ++ l) := by
  intro l
  induction l with
  | nil => intro h; exact absurd rfl h
  | cons m ms ih =>
    intro _ acc f hf hall
    obtain ⟨g, rfl⟩ : ∃ g, f = g + 1 := ⟨f - 1, by omega⟩
    simp only [List.all_cons, Bool.and_eq_true] at hall
    obtain ⟨hm, hall⟩ := hall
    cases ms with
    | nil =>
      have hme : parseMember (SList.Encode [m]) = .ok (m, []) := by
        have h0 := parseMember_complete hm restOk_nil
        simpa [SList.Encode] using h0
      simp only [parseListLoopF, hme]
      rw [if_neg (by simp [skipSpaces])]
    | cons q qs =>
      have hshape : SList.Encode (m :: q :: qs) =
          Member.Encode m ++ (44 :: (32 :: SList.Encode (q :: qs))) := by
        simp [SList.Encode]
      have hme : parseMember (SList.Encode (m :: q :: qs)) =
          .ok (m, 44 :: (32 :: SList.Encode (q :: qs))) := by
        have h0 := parseMember_complete hm
          (restOk_cons 44 (32 :: SList.Encode (q :: qs)) (by decide) (by decide)
            (by decide) (by decide))
        rw [skipSpaces_cons_ne _ (by omega)] at h0
        rw [hshape]
        exact h0
      simp only [parseListLoopF, hme]
      rw [skipSpaces_cons_ne _ (show (44:Nat) ≠ 32 by omega)]
      simp only [List.head?_cons, List.tail_cons]
      rw [if_pos trivial]
      have hg : ∃ g2, g = g2 + 1 := by
        rw [hshape] at hf
        simp only [List.length_append, List.length_cons] at hf
        exact ⟨g - 1, by omega⟩
      obtain ⟨g2, rfl⟩ := hg
      rw [parseListLoopF_space]
      have hfuel : (SList.Encode (q :: qs)).length < g2 + 1 := by
        rw [hshape] at hf
        simp only [List.length_append, List.length_cons] at hf ⊢
        omega
      have := ih (by simp) (acc ++ [m]) (g2 + 1) hfuel hall
      simpa using this

/-- Round trip for dictionaries: parsing an encoded valid dictionary
returns it unchanged. -/
theorem ParseDictLine_complete {d : Dict} (hv : validDict d = true) :
    ParseDictLine (Dict.Encode d) = .ok d := by
  simp only [validDict, Bool.and_eq_true] at hv
  cases d with
  | nil => rfl
  | cons p ps =>
    have hp : validPair p = true := by
      have := hv.1
      simp only [List.all_cons, Bool.and_eq_true] at this
      exact this.1
    obtain ⟨c, cs, hpenc, hc⟩ := pairEncode_head hp
    have hc32 : c ≠ 32 := isLower_ne32 hc
    have hshape : ∃ t, Dict.Encode (p :: ps) = c :: t := by
      cases ps with
      | nil => exact ⟨cs, by simp [Dict.Encode, hpenc]⟩
      | cons q qs =>
        exact ⟨cs ++ (44 :: 32 :: Dict.Encode (q :: qs)),
          by simp [Dict.Encode, hpenc]⟩
    obtain ⟨t, ht⟩ := hshape
    rw [ht]
    simp only [ParseDictLine, skipSpaces_cons_ne _ hc32]
    rw [← ht]
    have := parseDictLoopF_complete (p :: ps) (by simp) []
      ((Dict.Encode (p :: ps)).length + 1) (by omega) hv.1 hv.2
      (by intro a _ q hq; exact absurd hq (List.not_mem_nil q))
    simpa using this

/-- Round trip for lists: parsing an encoded valid list returns it
unchanged. -/
theorem ParseListLine_complete {l : SList} (hv : validSList l = true) :
    ParseListLine (SList.Encode l) = .ok l := by
  cases l with
  | nil => rfl
  | cons m ms =>
    have hm : validMember m = true := by
      simp only [validSList, List.all_cons, Bool.and_eq_true] at hv
      exact hv.1
    obtain ⟨c, cs, hmenc, hc32⟩ := memberEncode_head hm
    have hshape : ∃ t, SList.Encode (m :: ms) = c :: t := by
      cases ms with
      | nil => exact ⟨cs, by simp [SList.Encode, hmenc]⟩
      | cons q qs =>
        exact ⟨cs ++ (44 :: 32 :: SList.Encode (q :: qs)),
          by simp [SList.Encode, hmenc]⟩
    obtain ⟨t, ht⟩ := hshape
    rw [ht]
    simp only [ParseListLine, skipSpaces_cons_ne _ hc32]
    rw [← ht]
    have := parseListLoopF_complete (m :: ms) (by simp) []
      ((SList.Encode (m :: ms)).length + 1) (by omega) hv
    simpa using this

/-- Round trip for items: parsing an encoded valid item returns it
unchanged. -/
theorem ParseItemLine_complete {it : Item} (hv : validItem it = true) :
    ParseItemLine (Item.Encode it) = .ok it := by
  have h0 := parseItem_complete hv restOk_nil
  rw [List.append_nil] at h0
  simp only [ParseItemLine, h0, skipSpaces_nil]
  rw [if_pos trivial]

theorem parseKey_spaces {sp : List Nat} (h : isSpaces sp = true) :
    parseKey sp = .error .unexpectedEOL := by
  simp only [parseKey, skipSpaces_of_spaces h]

theorem parsePair_spaces {sp : List Nat} (h : isSpaces sp = true) :
    parsePair sp = .error .unexpectedEOL := by
  simp only [parsePair, parseKey_spaces h]

theorem parseMember_spaces {sp : List Nat} (h : isSpaces sp = true) :
    parseMember sp = .error .unexpectedEOL := by
  simp only [parseMember, skipSpaces_of_spaces h]

/-- After the last encoded pair a dangling comma leaves the dictionary
loop facing only spaces: the next key read hits end of input. -/
theorem parseDictLoopF_trailing :
    ∀ (d : Dict), d ≠ [] → ∀ (acc : Dict) (f : Nat) (sp : List Nat),
      (Dict.Encode d ++ 44 :: sp).length < f →
      d.all validPair = true →
      isSpaces sp = true →
      parseDictLoopF f acc (Dict.Encode d ++ 44 :: sp) = .error .unexpectedEOL := by
  intro d
  induction d with
  | nil => intro h; exact absurd rfl h
  | cons p ps ih =>
    intro _ acc f sp hf hall hsp
    obtain ⟨g, rfl⟩ : ∃ g, f = g + 1 := ⟨f - 1, by omega⟩
    simp only [List.all_cons, Bool.and_eq_true] at hall
    obtain ⟨hp, hall⟩ := hall
    have hg1 : ∃ g2, g = g2 + 1 := by
      refine ⟨g - 1, ?_⟩
      simp only [List.length_append, List.length_cons] at hf
      omega
    cases ps with
    | nil =>
      have hpe : parsePair (Dict.Encode [p] ++ 44 :: sp) = .ok (p, 44 :: sp) := by
        have h0 := parsePair_complete hp
          (restOk_cons 44 sp (by decide) (by decide) (by decide) (by decide))
        rw [skipSpaces_cons_ne _ (by omega)] at h0
        simpa [Dict.Encode] using h0
      simp only [parseDictLoopF, hpe]
      rw [skipSpaces_cons_ne _ (show (44:Nat) ≠ 32 by omega)]
      simp only [List.head?_cons, List.tail_cons]
      rw [if_pos trivial]
      obtain ⟨g2, rfl⟩ := hg1
      simp only [parseDictLoopF, parsePair_spaces hsp]
    | cons q qs =>
      have hshape : Dict.Encode (p :: q :: qs) ++ 44 :: sp =
          Pair.Encode p ++ (44 :: (32 :: (Dict.Encode (q :: qs) ++ 44 :: sp))) := by
        simp [Dict.Encode]
      have hpe : parsePair (Dict.Encode (p :: q :: qs) ++ 44 :: sp) =
          .ok (p, 44 :: (32 :: (Dict.Encode (q :: qs) ++ 44 :: sp))) := by
        have h0 := parsePair_complete hp
          (restOk_cons 44 (32 :: (Dict.Encode (q :: qs) ++ 44 :: sp)) (by decide)
            (by decide) (by decide) (by decide))
        rw [skipSpaces_cons_ne _ (by omega)] at h0
        rw [hshape]
        exact h0
      simp only [parseDictLoopF, hpe]
      rw [skipSpaces_cons_ne _ (show (44:Nat) ≠ 32 by omega)]
      simp only [List.head?_cons, List.tail_cons]
      rw [if_pos trivial]
      obtain ⟨g2, rfl⟩ := hg1
      rw [parseDictLoopF_space]
      have hfuel : (Dict.Encode (q :: qs) ++ 44 :: sp).length < g2 + 1 := by
        rw [hshape] at hf
        simp only [List.length_append, List.length_cons] at hf ⊢
        omega
      exact ih (by simp) _ (g2 + 1) sp hfuel hall hsp

/-- The list analogue: after a dangling comma the member parse skips the
spaces and hits end of input. -/
theorem parseListLoopF_trailing :
    ∀ (l : SList), l ≠ [] → ∀ (acc : SList) (f : Nat) (sp : List Nat),
      (SList.Encode l ++ 44 :: sp).length < f →
      l.all validMember = true →
      isSpaces sp = true →
      parseListLoopF f acc (SList.Encode l ++ 44 :: sp) = .error .unexpectedEOL := by
  intro l
  induction l with
  | nil => intro h; exact absurd rfl h
  | cons m ms ih =>
    intro _ acc f sp hf hall hsp
    obtain ⟨g, rfl⟩ : ∃ g, f = g + 1 := ⟨f - 1, by omega⟩
    simp only [List.all_cons, Bool.and_eq_true] at hall
    obtain ⟨hm, hall⟩ := hall
    have hg1 : ∃ g2, g = g2 + 1 := by
      refine ⟨g - 1, ?_⟩
      simp only [List.length_append, List.length_cons] at hf
      omega
    cases ms with
    | nil =>
      have hme : parseMember (SList.Encode [m] ++ 44 :: sp) = .ok (m, 44 :: sp) := by
        have h0 := parseMember_complete hm
          (restOk_cons 44 sp (by decide) (by decide) (by decide) (by decide))
        rw [skipSpaces_cons_ne _ (by omega)] at h0
        simpa [SList.Encode] using h0
      simp only [parseListLoopF, hme]
      rw [skipSpaces_cons_ne _ (show (44:Nat) ≠ 32 by omega)]
      simp only [List.head?_cons, List.tail_cons]
      rw [if_pos trivial]
      obtain ⟨g2, rfl⟩ := hg1
      simp only [parseListLoopF, parseMember_spaces hsp]
    | cons q qs =>
      have hshape : SList.Encode (m :: q :: qs) ++ 44 :: sp =
          Member.Encode m ++ (44 :: (32 :: (SList.Encode (q :: qs) ++ 44 :: sp))) := by
        simp [SList.Encode]
      have hme : parseMember (SList.Encode (m :: q :: qs) ++ 44 :: sp) =
          .ok (m, 44 :: (32 :: (SList.Encode (q :: qs) ++ 44 :: sp))) := by
        have h0 := parseMember_complete hm
          (restOk_cons 44 (32 :: (SList.Encode (q :: qs) ++ 44 :: sp)) (by decide)
            (by decide) (by decide) (by decide))
        rw [skipSpaces_cons_ne _ (by omega)] at h0
        rw [hshape]
        exact h0
      simp only [parseListLoopF, hme]
      rw [skipSpaces_cons_ne _ (show (44:Nat) ≠ 32 by omega)]
      simp only [List.head?_cons, List.tail_cons]
      rw [if_pos trivial]
      obtain ⟨g2, rfl⟩ := hg1
      rw [parseListLoopF_space]
      have hfuel : (SList.Encode (q :: qs) ++ 44 :: sp).length < g2 + 1 := by
        rw [hshape] at hf
        simp only [List.length_append, List.length_cons] at hf ⊢
        omega
      exact ih (by simp) _ (g2 + 1) sp hfuel hall hsp

/-- Entry-level dangling comma on a dictionary line. -/
theorem ParseDictLine_trailing {d : Dict} {sp : List Nat} (hne : d ≠ [])
    (hv : d.all validPair = true) (hsp : isSpaces sp = true) :
    ParseDictLine (Dict.Encode d ++ 44 :: sp) = .error .unexpectedEOL := by
  match d, hne with
  | p :: ps, _ =>
    have hp : validPair p = true := by
      simp only [List.all_cons, Bool.and_eq_true] at hv
      exact hv.1
    obtain ⟨c, cs, hpenc, hc⟩ := pairEncode_head hp
    have hc32 : c ≠ 32 := isLower_ne32 hc
    have hshape : ∃ t, Dict.Encode (p :: ps) ++ 44 :: sp = c :: t := by
      cases ps with
      | nil => exact ⟨cs ++ 44 :: sp, by simp [Dict.Encode, hpenc]⟩
      | cons q qs =>
        exact ⟨cs ++ (44 :: 32 :: Dict.Encode (q :: qs)) ++ 44 :: sp,
          by simp [Dict.Encode, hpenc]⟩
    obtain ⟨t, ht⟩ := hshape
    rw [ht]
    simp only [ParseDictLine, skipSpaces_cons_ne _ hc32]
    rw [← ht]
    exact parseDictLoopF_trailing (p :: ps) (by simp) []
      ((Dict.Encode (p :: ps) ++ 44 :: sp).length + 1) sp (by omega) hv hsp

/-- Entry-level dangling comma on a list line. -/
theorem ParseListLine_trailing {l : SList} {sp : List Nat} (hne : l ≠ [])
    (hv : l.all validMember = true) (hsp : isSpaces sp = true) :
    ParseListLine (SList.Encode l ++ 44 :: sp) = .error .unexpectedEOL := by
  match l, hne with
  | m :: ms, _ =>
    have hm : validMember m = true := by
      simp only [List.all_cons, Bool.and_eq_true] at hv
      exact hv.1
    obtain ⟨c, cs, hmenc, hc32⟩ := memberEncode_head hm
    have hshape : ∃ t, SList.Encode (m :: ms) ++ 44 :: sp = c :: t := by
      cases ms with
      | nil => exact ⟨cs ++ 44 :: sp, by simp [SList.Encode, hmenc]⟩
      | cons q qs =>
        exact ⟨cs ++ (44 :: 32 :: SList.Encode (q :: qs)) ++ 44 :: sp,
          by simp [SList.Encode, hmenc]⟩
    obtain ⟨t, ht⟩ := hshape
    rw [ht]
    simp only [ParseListLine, skipSpaces_cons_ne _ hc32]
    rw [← ht]
    exact parseListLoopF_trailing (m :: ms) (by simp) []
      ((SList.Encode (m :: ms) ++ 44 :: sp).length + 1) sp (by omega) hv hsp

theorem parseNumberTail_cons (sign : Int) (d : Nat) (rest : List Nat)
    (hd : isDigit d = true) :
    parseNumberTail sign (d :: rest) =
      match parseNumberLoop [] none (d :: rest) with
      | .error e => .error e
      | .ok (sb, dp, rest2) =>
        match dp with
        | none => .ok (.integer (sign * (digitsToNat sb : Nat)), rest2)
        | some 1 => .ok (.decimal (sign * (digitsToNat sb : Nat) * 100), rest2)
        | some 2 => .ok (.decimal (sign * (digitsToNat sb : Nat) * 10), rest2)
        | some 3 => .ok (.decimal (sign * (digitsToNat sb : Nat)), rest2)
        | some _ => .error .unrecognized := by
  simp only [parseNumberTail]
  rw [if_pos hd]

/-- A sixteenth digit trips the total budget before being written. -/
theorem parseNumber_digits16 : ∀ (ds rest : List Nat), ds.all isDigit = true →
    ds.length = 16 → parseNumber (ds ++ rest) = .error .tooManyDigits := by
  intro ds rest hall hlen
  match ds, hlen with
  | d :: ds', hlen =>
    have hd : isDigit d = true := by
      simp only [List.all_cons, Bool.and_eq_true] at hall
      exact hall.1
    have hd45 : ¬(d = 45) := by
      have := isDigit_ranges hd
      omega
    rw [List.cons_append]
    simp only [parseNumber]
    rw [if_pos (Or.inr hd), if_neg hd45, if_neg hd45]
    rw [parseNumberTail_cons 1 d (ds' ++ rest) hd]
    rw [show d :: (ds' ++ rest) = (d :: ds') ++ rest from rfl]
    rw [parseNumberLoop_budget (d :: ds') [] rest none hall (by simp [hlen]) (by simp)
      (by intro j h; exact Option.noConfusion h)]

/-- Fifteen digits fit the budget: the run is read whole and the literal
parses as the integer it denotes. -/
theorem parseNumber_digits15 : ∀ (ds rest : List Nat), ds.all isDigit = true →
    ds.length = 15 →
    (∀ c cs, rest = c :: cs → isDigit c = false ∧ c ≠ 46) →
    parseNumber (ds ++ rest) = .ok (.integer ((digitsToNat ds : Nat) : Int), rest) := by
  intro ds rest hall hlen hrest
  match ds, hlen with
  | d :: ds', hlen =>
    have hd : isDigit d = true := by
      simp only [List.all_cons, Bool.and_eq_true] at hall
      exact hall.1
    have hd45 : ¬(d = 45) := by
      have := isDigit_ranges hd
      omega
    rw [List.cons_append]
    simp only [parseNumber]
    rw [if_pos (Or.inr hd), if_neg hd45, if_neg hd45]
    rw [parseNumberTail_cons 1 d (ds' ++ rest) hd]
    rw [show d :: (ds' ++ rest) = (d :: ds') ++ rest from rfl]
    rw [parseNumberLoop_absorb_none (d :: ds') [] rest hall (by simp [hlen]),
      parseNumberLoop_stop ([] ++ (d :: ds')) none hrest]
    simp

/-- A fourth fractional digit trips the fractional budget. -/
theorem parseNumber_frac4 : ∀ (ip fs rest : List Nat), ip.all isDigit = true →
    ip ≠ [] → ip.length ≤ 15 → fs.all isDigit = true → 4 ≤ fs.length →
    parseNumber (ip ++ 46 :: (fs ++ rest)) = .error .tooManyDigits := by
  intro ip fs rest hip hne hlen hfs hflen
  match ip, hne with
  | d :: ds', _ =>
    have hd : isDigit d = true := by
      simp only [List.all_cons, Bool.and_eq_true] at hip
      exact hip.1
    have hd45 : ¬(d = 45) := by
      have := isDigit_ranges hd
      omega
    rw [List.cons_append]
    simp only [parseNumber]
    rw [if_pos (Or.inr hd), if_neg hd45, if_neg hd45]
    rw [parseNumberTail_cons 1 d (ds' ++ (46 :: (fs ++ rest))) hd]
    rw [show d :: (ds' ++ (46 :: (fs ++ rest))) = (d :: ds') ++ (46 :: (fs ++ rest)) from rfl]
    rw [parseNumberLoop_absorb_none (d :: ds') [] _ hip (by simpa using hlen),
      parseNumberLoop_cons_none]
    rw [if_neg (by decide), if_pos rfl]
    rw [parseNumberLoop_budget_frac fs ([] ++ (d :: ds')) rest 0 hfs (by omega) (by omega)]

/-- A colon-less run of Base-64 bytes leaves the payload loop at end of
input. -/
theorem parseByteSeqLoop_eol :
    ∀ (payload acc : List Nat), payload.all isBase64Char = true →
      parseByteSeqLoop acc payload = .error .unexpectedEOL := by
  intro payload
  induction payload with
  | nil => intro acc _; rfl
  | cons c cs ih =>
    intro acc hall
    simp only [List.all_cons, Bool.and_eq_true] at hall
    obtain ⟨hc, hall⟩ := hall
    have hc58 : c ≠ 58 := by
      rintro rfl
      exact absurd hc (by decide)
    simp only [parseByteSeqLoop]
    rw [if_neg hc58, if_pos hc]
    exact ih _ hall

theorem parseByteSeq_eol {payload : List Nat} (hall : payload.all isBase64Char = true) :
    parseByteSeq (58 :: payload) = .error .unexpectedEOL := by
  rw [parseByteSeq, if_pos rfl, parseByteSeqLoop_eol payload [] hall]

/-- A byte outside the Base-64 alphabet before the closing colon stops
the payload loop with Unrecognized. -/
theorem parseByteSeqLoop_bad :
    ∀ (payload acc : List Nat) (c : Nat) (rest : List Nat),
      payload.all isBase64Char = true → isBase64Char c = false → c ≠ 58 →
      parseByteSeqLoop acc (payload ++ c :: rest) = .error .unrecognized := by
  intro payload
  induction payload with
  | nil =>
    intro acc c rest _ hbad hc58
    simp only [List.nil_append, parseByteSeqLoop]
    rw [if_neg hc58, if_neg (by simp [hbad])]
  | cons b bs ih =>
    intro acc c rest hall hbad hc58
    simp only [List.all_cons, Bool.and_eq_true] at hall
    obtain ⟨hb, hall⟩ := hall
    have hb58 : b ≠ 58 := by
      rintro rfl
      exact absurd hb (by decide)
    rw [List.cons_append]
    simp only [parseByteSeqLoop]
    rw [if_neg hb58, if_pos hb]
    exact ih _ c rest hall hbad hc58

theorem parseByteSeq_bad {payload : List Nat} {c : Nat} {rest : List Nat}
    (hall : payload.all isBase64Char = true) (hbad : isBase64Char c = false)
    (hc58 : c ≠ 58) :
    parseByteSeq (58 :: (payload ++ c :: rest)) = .error .unrecognized := by
  rw [parseByteSeq, if_pos rfl, parseByteSeqLoop_bad payload [] c rest hall hbad hc58]

/-- One item step of the inner-list loop, for an arbitrary successfully
parsed item. -/
theorem parseInnerListLoopF_item (f : Nat) (items : List Item) {i : Item}
    {s s2 : List Nat} (hc : ∃ c cs, s = c :: cs ∧ c ≠ 32 ∧ c ≠ 41)
    (hpi : parseItem s = .ok (i, s2)) :
    parseInnerListLoopF (f + 1) items s = parseInnerListLoopF f (items ++ [i]) s2 := by
  obtain ⟨c, cs, rfl, h32, h41⟩ := hc
  simp only [parseInnerListLoopF, skipSpaces_cons_ne _ h32]
  rw [if_neg h41]
  simp only [hpi]

/-- The closing parenthesis stops the inner-list loop. -/
theorem parseInnerListLoopF_close (f : Nat) (items : List Item) (X : List Nat) :
    parseInnerListLoopF (f + 1) items (41 :: X) = .ok (items, X) := by
  simp only [parseInnerListLoopF, skipSpaces_cons_ne _ (show (41:Nat) ≠ 32 by omega)]
  rw [if_pos trivial]

/-! ## The claims -/

/-- C1: the claim says Add on an existing key replaces the stored value in
place (a=1, b=2 then Add(a, 3) gives a=3, b=2).  The Go loop ranges over
value copies of the pairs, so the write lands on the copy and the container
is returned unchanged: the old value survives, for Dict.Add and
ParamList.Add alike. -/
theorem spec_C1 :
    Dict.Add [⟨[97], .item ⟨.integer 1, []⟩⟩, ⟨[98], .item ⟨.integer 2, []⟩⟩]
        [97] (.item ⟨.integer 3, []⟩) =
      [⟨[97], .item ⟨.integer 1, []⟩⟩, ⟨[98], .item ⟨.integer 2, []⟩⟩] ∧
    ParamList.Add [⟨[97], .integer 1⟩, ⟨[98], .integer 2⟩] [97] (.integer 3) =
      [⟨[97], .integer 1⟩, ⟨[98], .integer 2⟩] :=
  ⟨rfl, rfl⟩

/-- C2: the round-trip law.  Encoding a valid value tree and re-parsing it
with the matching entry point returns exactly the tree: dictionaries
through ParseDictLine, lists through ParseListLine, items through
ParseItemLine. -/
theorem spec_C2 (d : Dict) (l : SList) (it : Item)
    (hd : validDict d = true) (hl : validSList l = true)
    (hi : validItem it = true) :
    ParseDictLine (Dict.Encode d) = .ok d ∧
    ParseListLine (SList.Encode l) = .ok l ∧
    ParseItemLine (Item.Encode it) = .ok it :=
  ⟨ParseDictLine_complete hd, ParseListLine_complete hl, ParseItemLine_complete hi⟩

theorem spec_C2_witness :
    (validDict [⟨[97], .item ⟨.integer 1, []⟩⟩] = true ∧
      validSList [.item ⟨.bool true, []⟩] = true ∧
      validItem ⟨.string [104, 105], []⟩ = true) ∧
    ParseDictLine (Dict.Encode [⟨[97], .item ⟨.integer 1, []⟩⟩]) =
      .ok [⟨[97], .item ⟨.integer 1, []⟩⟩] ∧
    ParseListLine (SList.Encode [.item ⟨.bool true, []⟩]) =
      .ok [.item ⟨.bool true, []⟩] ∧
    ParseItemLine (Item.Encode ⟨.string [104, 105], []⟩) =
      .ok ⟨.string [104, 105], []⟩ :=
  ⟨⟨by decide, by decide, by decide⟩,
   spec_C2 [⟨[97], .item ⟨.integer 1, []⟩⟩] [.item ⟨.bool true, []⟩]
     ⟨.string [104, 105], []⟩ (by decide) (by decide) (by decide)⟩

/-- C3: an input of only spaces (the empty string included) parses as the
empty dictionary and the empty list, with no error. -/
theorem spec_C3 (sp : List Nat) (hsp : isSpaces sp = true) :
    ParseDictLine sp = .ok [] ∧ ParseListLine sp = .ok [] := by
  constructor
  · simp only [ParseDictLine, skipSpaces_of_spaces hsp]
  · simp only [ParseListLine, skipSpaces_of_spaces hsp]

theorem spec_C3_witness :
    (isSpaces [] = true ∧ isSpaces [32, 32] = true) ∧
    (ParseDictLine [] = .ok [] ∧ ParseListLine [] = .ok []) ∧
    (ParseDictLine [32, 32] = .ok [] ∧ ParseListLine [32, 32] = .ok []) :=
  ⟨⟨by decide, by decide⟩, spec_C3 [] (by decide), spec_C3 [32, 32] (by decide)⟩

/-- C4: the digit budget.  A sixteenth digit of an integer literal fails
with TooManyDigits, a fourth fractional digit fails with TooManyDigits,
and every fifteen-digit integer literal is accepted. -/
theorem spec_C4 :
    (∀ ds rest : List Nat, ds.all isDigit = true → ds.length = 16 →
      parseNumber (ds ++ rest) = .error .tooManyDigits) ∧
    (∀ ip fs rest : List Nat, ip.all isDigit = true → ip ≠ [] →
      ip.length ≤ 15 → fs.all isDigit = true → 4 ≤ fs.length →
      parseNumber (ip ++ 46 :: (fs ++ rest)) = .error .tooManyDigits) ∧
    (∀ ds rest : List Nat, ds.all isDigit = true → ds.length = 15 →
      (∀ c cs, rest = c :: cs → isDigit c = false ∧ c ≠ 46) →
      parseNumber (ds ++ rest) = .ok (.integer ((digitsToNat ds : Nat) : Int), rest)) :=
  ⟨parseNumber_digits16, parseNumber_frac4, parseNumber_digits15⟩

theorem spec_C4_witness :
    parseNumber (List.replicate 16 49 ++ []) = .error .tooManyDigits ∧
    parseNumber ([49] ++ 46 :: ([48, 48, 48, 48] ++ [])) = .error .tooManyDigits ∧
    parseNumber (List.replicate 15 49 ++ []) =
      .ok (.integer ((digitsToNat (List.replicate 15 49) : Nat) : Int), []) :=
  ⟨spec_C4.1 (List.replicate 16 49) [] (by decide) (by decide),
   spec_C4.2.1 [49] [48, 48, 48, 48] [] (by decide) (by decide) (by decide)
     (by decide) (by decide),
   spec_C4.2.2 (List.replicate 15 49) [] (by decide) (by decide)
     (by intro c cs h; exact List.noConfusion h)⟩

/-- C5: decimal encoding renders the fractional part as fracDigits, which
always keeps at least one fractional digit and keeps a trailing zero only
as the sole fractional digit; 1000, 1500 and 1050 (thousandths) render as
1.0, 1.5 and 1.05. -/
theorem spec_C5 :
    (∀ x : Int, decimalEncode x =
      (if x < 0 then [45] else []) ++ natDigits (x.natAbs / 1000) ++
        (46 :: fracDigits (x.natAbs % 1000))) ∧
    (∀ f : Nat, 1 ≤ (fracDigits f).length) ∧
    (∀ f : Nat, (fracDigits f).getLast? = some 48 → (fracDigits f).length = 1) ∧
    decimalEncode 1000 = str "1.0" ∧
    decimalEncode 1500 = str "1.5" ∧
    decimalEncode 1050 = str "1.05" := by
  refine ⟨decimalEncode_eq, ?_, ?_, by rfl, by rfl, by rfl⟩
  · intro f
    rw [fracDigits_length]
    exact (fracLen_bounds f).1
  · intro f h
    unfold fracDigits at h ⊢
    by_cases h10 : f % 10 ≠ 0
    · rw [if_pos h10] at h
      rw [show ([f / 100 + 48, f / 10 % 10 + 48, f % 10 + 48] : List Nat).getLast? =
        some (f % 10 + 48) from rfl] at h
      have h2 := Option.some.inj h
      exact absurd (show f % 10 = 0 by omega) h10
    · rw [if_neg h10] at h ⊢
      by_cases h100 : f % 100 ≠ 0
      · rw [if_pos h100] at h
        rw [show ([f / 100 + 48, f / 10 % 10 + 48] : List Nat).getLast? =
          some (f / 10 % 10 + 48) from rfl] at h
        have h2 := Option.some.inj h
        push_neg at h10
        exact absurd (show f % 100 = 0 by omega) h100
      · rw [if_neg h100]
        rfl

theorem spec_C5_witness :
    (decimalEncode 2500 =
      (if (2500 : Int) < 0 then [45] else []) ++
        natDigits ((2500 : Int).natAbs / 1000) ++
        (46 :: fracDigits ((2500 : Int).natAbs % 1000))) ∧
    1 ≤ (fracDigits 500).length ∧
    ((fracDigits 0).getLast? = some 48 ∧ (fracDigits 0).length = 1) :=
  ⟨spec_C5.1 2500, spec_C5.2.1 500, ⟨by rfl, spec_C5.2.2.1 0 (by rfl)⟩⟩

/-- C6: whenever non-space bytes remain after the parsed item,
ParseItemLine fails with Unrecognized; in particular on the item line
5 garbage. -/
theorem spec_C6 :
    (∀ (s : List Nat) (it : Item) (rest : List Nat),
      parseItem s = .ok (it, rest) → skipSpaces rest ≠ [] →
      ParseItemLine s = .error .unrecognized) ∧
    ParseItemLine (str "5 garbage") = .error .unrecognized := by
  constructor
  · intro s it rest hpi hne
    simp only [ParseItemLine, hpi]
    rw [if_neg hne]
  · rfl

theorem spec_C6_witness :
    parseItem (str "5 garbage") = .ok (⟨.integer 5, []⟩, str "garbage") ∧
    ParseItemLine (str "5 garbage") = .error .unrecognized :=
  ⟨by rfl, spec_C6.1 (str "5 garbage") ⟨.integer 5, []⟩ (str "garbage")
    (by rfl) (by decide)⟩

/-- C7 (corrected): the space between inner-list items is not mandatory in
this implementation.  Two encoded strings placed directly adjacent
between the parentheses parse as a two-item inner list, because each item
is self-delimiting and the loop requires no separator. -/
theorem spec_C7 (s1 s2 : List Nat) (h1 : s1.all isPrint = true)
    (h2 : s2.all isPrint = true) :
    parseInnerList (40 :: (stringEncode s1 ++ (stringEncode s2 ++ [41]))) =
      .ok (⟨[⟨.string s1, []⟩, ⟨.string s2, []⟩], []⟩, []) := by
  have hv1 : validItem ⟨.string s1, []⟩ = true := by
    simp [validItem, validBare, validParamList, noDupKeys, h1]
  have hv2 : validItem ⟨.string s2, []⟩ = true := by
    simp [validItem, validBare, validParamList, noDupKeys, h2]
  have hse1 : stringEncode s1 = 34 :: ((s1.map escByte).flatten ++ [34]) := rfl
  have hse2 : stringEncode s2 = 34 :: ((s2.map escByte).flatten ++ [34]) := rfl
  have hpi1 : parseItem (stringEncode s1 ++ (stringEncode s2 ++ [41])) =
      .ok (⟨.string s1, []⟩, stringEncode s2 ++ [41]) := by
    have h0 := parseItem_complete hv1 (show restOk (stringEncode s2 ++ [41]) from by
      rw [hse2, List.cons_append]
      exact restOk_cons 34 _ (by decide) (by decide) (by decide) (by decide))
    rw [show Item.Encode ⟨.string s1, []⟩ = stringEncode s1 from by
      simp [Item.Encode, BareItem.Encode, ParamList.Encode]] at h0
    rw [show skipSpaces (stringEncode s2 ++ [41]) = stringEncode s2 ++ [41] from by
      rw [hse2, List.cons_append, skipSpaces_cons_ne _ (by omega)]] at h0
    exact h0
  have hpi2 : parseItem (stringEncode s2 ++ [41]) = .ok (⟨.string s2, []⟩, [41]) := by
    have h0 := parseItem_complete hv2
      (restOk_cons 41 [] (by decide) (by decide) (by decide) (by decide))
    rw [show Item.Encode ⟨.string s2, []⟩ = stringEncode s2 from by
      simp [Item.Encode, BareItem.Encode, ParamList.Encode]] at h0
    exact h0
  have hhd1 : ∃ c cs, stringEncode s1 ++ (stringEncode s2 ++ [41]) = c :: cs ∧
      c ≠ 32 ∧ c ≠ 41 := by
    rw [hse1, List.cons_append]
    exact ⟨34, _, rfl, by omega, by omega⟩
  have hhd2 : ∃ c cs, stringEncode s2 ++ [41] = c :: cs ∧ c ≠ 32 ∧ c ≠ 41 := by
    rw [hse2, List.cons_append]
    exact ⟨34, _, rfl, by omega, by omega⟩
  have hlen1 : 2 ≤ (stringEncode s1).length := by
    rw [hse1]
    simp only [List.length_cons, List.length_append, List.length_nil]
    omega
  have hT : ∃ f2, (stringEncode s1 ++ (stringEncode s2 ++ [41])).length =
      f2 + 1 + 1 := by
    refine ⟨(stringEncode s1 ++ (stringEncode s2 ++ [41])).length - 2, ?_⟩
    simp only [List.length_append, List.length_cons, List.length_nil] at hlen1 ⊢
    omega
  obtain ⟨f2, hf2⟩ := hT
  simp only [parseInnerList]
  rw [if_pos trivial, hf2]
  rw [parseInnerListLoopF_item (f2 + 1 + 1) [] hhd1 hpi1]
  simp only [List.nil_append]
  rw [parseInnerListLoopF_item (f2 + 1) [⟨.string s1, []⟩] hhd2 hpi2]
  rw [parseInnerListLoopF_close f2 _ []]
  rfl

theorem spec_C7_witness :
    ((str "a").all isPrint = true ∧ (str "b").all isPrint = true) ∧
    parseInnerList (40 :: (stringEncode (str "a") ++ (stringEncode (str "b") ++ [41]))) =
      .ok (⟨[⟨.string (str "a"), []⟩, ⟨.string (str "b"), []⟩], []⟩, []) :=
  ⟨⟨by decide, by decide⟩, spec_C7 (str "a") (str "b") (by decide) (by decide)⟩

theorem spec_C7_counterexample :
    parseInnerList (str "(\"a\"\"b\")") =
      .ok (⟨[⟨.string (str "a"), []⟩, ⟨.string (str "b"), []⟩], []⟩, []) := by
  rfl

/-- C8: encoding omits the value exactly for a bare Bool true: a parameter
with value Bool true renders as its key alone; a pair whose value is an
implicit-true item renders as the key followed by the item's parameters;
and the dictionary parsed from a=?0, b, c; foo=bar re-encodes to
a=?0, b, c;foo=bar. -/
theorem spec_C8 :
    (∀ p : Param, p.value = .bool true → Param.Encode p = p.key) ∧
    (∀ (pr : Pair) (ps : ParamList), pr.value = .item ⟨.bool true, ps⟩ →
      Pair.Encode pr = pr.key ++ ParamList.Encode ps) ∧
    Except.map Dict.Encode (ParseDictLine (str "a=?0, b, c; foo=bar")) =
      .ok (str "a=?0, b, c;foo=bar") :=
  ⟨fun p h => paramEncode_true h, fun pr ps h => pairEncode_true h, by rfl⟩

theorem spec_C8_witness :
    Param.Encode ⟨[97], .bool true⟩ = ([97] : List Nat) ∧
    Pair.Encode ⟨[98], .item ⟨.bool true, [⟨[99], .integer 7⟩]⟩⟩ =
      [98] ++ ParamList.Encode [⟨[99], .integer 7⟩] :=
  ⟨spec_C8.1 ⟨[97], .bool true⟩ rfl,
   spec_C8.2.1 ⟨[98], .item ⟨.bool true, [⟨[99], .integer 7⟩]⟩⟩
     [⟨[99], .integer 7⟩] rfl⟩

/-- C9: the byte-sequence parser accepts every colon-delimited run of
Base-64 alphabet bytes, decoding leniently (a Base-64 decode failure is
dropped, never surfaced); a missing closing colon is UnexpectedEOL and a
byte outside the alphabet before the close is Unrecognized. -/
theorem spec_C9 :
    (∀ payload rest : List Nat, payload.all isBase64Char = true →
      parseByteSeq (58 :: (payload ++ (58 :: rest))) =
        .ok (.byteSeq (base64Decode payload), rest)) ∧
    (∀ payload : List Nat, payload.all isBase64Char = true →
      parseByteSeq (58 :: payload) = .error .unexpectedEOL) ∧
    (∀ (payload : List Nat) (c : Nat) (rest : List Nat),
      payload.all isBase64Char = true → isBase64Char c = false → c ≠ 58 →
      parseByteSeq (58 :: (payload ++ c :: rest)) = .error .unrecognized) :=
  ⟨fun _ _ h => parseByteSeq_complete h, fun _ h => parseByteSeq_eol h,
   fun _ _ _ h1 h2 h3 => parseByteSeq_bad h1 h2 h3⟩

theorem spec_C9_witness :
    parseByteSeq (58 :: ([97] ++ (58 :: []))) =
      .ok (.byteSeq (base64Decode [97]), []) ∧
    parseByteSeq (58 :: [97]) = .error .unexpectedEOL ∧
    parseByteSeq (58 :: ([97] ++ 32 :: [])) = .error .unrecognized :=
  ⟨spec_C9.1 [97] [] (by decide), spec_C9.2.1 [97] (by decide),
   spec_C9.2.2 [97] 32 [] (by decide) (by decide) (by decide)⟩

/-- C10: a dangling trailing comma after the encoded pairs or members,
followed by nothing but spaces, makes ParseDictLine and ParseListLine
fail with UnexpectedEOL. -/
theorem spec_C10 (d : Dict) (l : SList) (sp : List Nat) (hdn : d ≠ [])
    (hdv : d.all validPair = true) (hln : l ≠ [])
    (hlv : l.all validMember = true) (hsp : isSpaces sp = true) :
    ParseDictLine (Dict.Encode d ++ 44 :: sp) = .error .unexpectedEOL ∧
    ParseListLine (SList.Encode l ++ 44 :: sp) = .error .unexpectedEOL :=
  ⟨ParseDictLine_trailing hdn hdv hsp, ParseListLine_trailing hln hlv hsp⟩

theorem spec_C10_witness :
    ParseDictLine (Dict.Encode [⟨[97], .item ⟨.integer 1, []⟩⟩] ++ 44 :: [32]) =
      .error .unexpectedEOL ∧
    ParseListLine (SList.Encode [.item ⟨.integer 1, []⟩] ++ 44 :: [32]) =
      .error .unexpectedEOL :=
  spec_C10 [⟨[97], .item ⟨.integer 1, []⟩⟩] [.item ⟨.integer 1, []⟩] [32]
    (by decide) (by decide) (by decide) (by decide) (by decide)

end SF
